import Mathlib

/-!
Verification of the date-shifting core of `app.py` (MCAT study-schedule planner).

The resolver operates on the melted task table (one row per `(Topic, Task Type, Date)`)
and applies three passes in sequence:

1. conference push-past (`app.py` lines 207–214),
2. vacation capacity redistribution (lines 216–238),
3. "Study Date" collision avoidance (lines 240–253).

Calendar dates are embedded as `Int` day numbers (the affine structure that
`datetime.date` plus `timedelta(days = 1)` provides); `civil y m d` converts a
calendar date to its day number with the standard days-from-civil algorithm, so
`civil 2025 6 24 + 1 = civil 2025 6 25` and so on.  The `while` loops of the
source advance a candidate day by day; they are embedded as fuel-based scans
whose fuel is a proven-sufficient bound, so each function is total and
executable and agrees with the unbounded loop whenever the loop terminates.
`defaultdict(int)` slot counters and the `occupied` set are embedded by their
observable lookup/membership semantics.
-/

namespace App

/-- One row of the melted table: `Topic`, `Task Type`, `Date` (`app.py` lines 23–40). -/
structure Task where
  topic : String
  ttype : String
  date : Int
  deriving DecidableEq, Repr

/-- The user-supplied shift configuration: conference ranges, vacation ranges and
the task-type sets selected for each kind of range (`app.py` lines 47–94). -/
structure Config where
  confRanges : List (Int × Int)
  vacRanges : List (Int × Int)
  confTypes : List String
  vacTypes : List String
  deriving DecidableEq, Repr

/-- Days-from-civil (proleptic Gregorian), valid for positive years; only the
successor structure matters for the resolver. -/
def daysFromCivil (y m d : Nat) : Nat :=
  let y1 := if m ≤ 2 then y - 1 else y
  let era := y1 / 400
  let yoe := y1 - era * 400
  let mp := (m + 9) % 12
  let doy := (153 * mp + 2) / 5 + d - 1
  let doe := yoe * 365 + yoe / 4 - yoe / 100 + doy
  era * 146097 + doe

/-- A calendar date as an `Int` day number. -/
def civil (y m d : Nat) : Int :=
  (daysFromCivil y m d : Int)

/-- `in_any_conf_range` (`app.py` lines 200–204): membership of a day in any of
the closed ranges. -/
def inAnyRange (rs : List (Int × Int)) (d : Int) : Bool :=
  rs.any fun r => decide (r.1 ≤ d) && decide (d ≤ r.2)

/-- Largest right endpoint among ranges (0 for none); bounds every day that lies
inside some range. -/
def rangeBound (rs : List (Int × Int)) : Int :=
  rs.foldr (fun r m => max r.2 m) 0

/-- Fuel-based day-by-day scan of the push-past loop (`app.py` lines 212–213). -/
def pushPastF : Nat → List (Int × Int) → Int → Int
  | 0, _, d => d
  | fuel + 1, rs, d => if inAnyRange rs d then pushPastF fuel rs (d + 1) else d

/-- `while in_any_conf_range(d, conf_ranges): d += 1` with sufficient fuel. -/
def pushPast (rs : List (Int × Int)) (d : Int) : Int :=
  pushPastF (rangeBound rs + 1 - d).toNat rs d

/-- Lookup in the embedded `defaultdict(int)` slot counter (missing key = 0). -/
def lookupCount (c : List (Int × Nat)) (x : Int) : Nat :=
  match c.find? (fun p => decide (p.1 = x)) with
  | some p => p.2
  | none => 0

/-- `slot_counts[x] += 1`, embedded by its lookup semantics. -/
def bump (c : List (Int × Nat)) (x : Int) : List (Int × Nat) :=
  (x, lookupCount c x + 1) :: c

/-- Largest key of a slot counter (0 for none). -/
def keyBound (c : List (Int × Nat)) : Int :=
  c.foldr (fun p m => max p.1 m) 0

/-- Fuel-based scan of the redistribution candidate loop (`app.py` lines 235–236). -/
def findSlotF : Nat → List (Int × Nat) → List (Int × Int) → Int → Int
  | 0, _, _, d => d
  | fuel + 1, counts, confs, d =>
    if decide (6 ≤ lookupCount counts d) || inAnyRange confs d then
      findSlotF fuel counts confs (d + 1)
    else d

/-- `while slot_counts[candidate] >= 6 or in_any_conf_range(candidate, conf_ranges)`
with sufficient fuel. -/
def findSlot (counts : List (Int × Nat)) (confs : List (Int × Int)) (d : Int) : Int :=
  findSlotF (max (keyBound counts) (rangeBound confs) + 1 - d).toNat counts confs d

/-- Largest member of the `occupied` set (0 for none). -/
def occBound (occ : List Int) : Int :=
  occ.foldr (fun x m => max x m) 0

/-- Fuel-based scan of the collision-avoidance candidate loop (`app.py` lines 250–251). -/
def findFreeF : Nat → List Int → List (Int × Int) → Int → Int
  | 0, _, _, d => d
  | fuel + 1, occ, confs, d =>
    if occ.contains d || inAnyRange confs d then findFreeF fuel occ confs (d + 1) else d

/-- `while (candidate in occupied) or in_any_conf_range(candidate, conf_ranges)`
with sufficient fuel. -/
def findFree (occ : List Int) (confs : List (Int × Int)) (d : Int) : Int :=
  findFreeF (max (occBound occ) (rangeBound confs) + 1 - d).toNat occ confs d

/-- Date of the row at position `i` (0 when out of bounds). -/
def dateAt (ts : List Task) (i : Nat) : Int :=
  match ts.get? i with
  | some t => t.date
  | none => 0

/-- `df_shifted.at[idx, "Date"] = c`: replace the date of the row at position `i`. -/
def setDate : List Task → Nat → Int → List Task
  | [], _, _ => []
  | t :: ts, 0, c => { t with date := c } :: ts
  | t :: ts, i + 1, c => t :: setDate ts i c

/-- Pass 1 (`app.py` lines 207–214): push every selected-type task that sits in a
conference range forward day by day until it leaves every conference range. -/
def pass1 (cfg : Config) (ts : List Task) : List Task :=
  ts.map fun t =>
    if cfg.confTypes.contains t.ttype && inAnyRange cfg.confRanges t.date then
      { t with date := pushPast cfg.confRanges t.date }
    else t

/-- Collection step of pass 2 (`app.py` lines 220–225): positions of the rows of a
selected vacation type dated inside the range, in row order. -/
def vacIdxs (cfg : Config) (r : Int × Int) (ts : List Task) : List Nat :=
  (List.range ts.length).filter fun i =>
    match ts.get? i with
    | some t => cfg.vacTypes.contains t.ttype && decide (r.1 ≤ t.date) && decide (t.date ≤ r.2)
    | none => false

/-- Occupancy snapshot of pass 2 (`app.py` lines 227–231): count every row (of any
type) dated strictly after the range end. -/
def initCounts (ts : List Task) (e : Int) : List (Int × Nat) :=
  ts.foldl (fun c t => if e < t.date then bump c t.date else c) []

/-- Placement of one collected row (`app.py` lines 233–238, loop body). -/
def placeStep (confs : List (Int × Int)) (e : Int)
    (st : List Task × List (Int × Nat)) (i : Nat) : List Task × List (Int × Nat) :=
  let c := findSlot st.2 confs (e + 1)
  (setDate st.1 i c, bump st.2 c)

/-- Placement of all collected rows in order. -/
def placeAll (confs : List (Int × Int)) (e : Int) (idxs : List Nat)
    (st : List Task × List (Int × Nat)) : List Task × List (Int × Nat) :=
  idxs.foldl (placeStep confs e) st

/-- `sorted(vac_indices, key=lambda i: df_shifted.at[i, "Date"])`: stable ascending
sort of the collected positions by current date. -/
def sortIdxs (ts : List Task) (idxs : List Nat) : List Nat :=
  List.insertionSort (fun i j => dateAt ts i ≤ dateAt ts j) idxs

/-- Pass-2 treatment of a single vacation range (`app.py` lines 218–238). -/
def processRange (cfg : Config) (ts : List Task) (r : Int × Int) : List Task :=
  (placeAll cfg.confRanges r.2 (sortIdxs ts (vacIdxs cfg r ts)) (ts, initCounts ts r.2)).1

/-- Ordering of ranges by start date, as used by `sorted(vac_ranges, key=lambda x: x[0])`. -/
def rangeLE (a b : Int × Int) : Prop :=
  a.1 ≤ b.1

instance : DecidableRel rangeLE := fun a b => Int.decLe a.1 b.1

instance : IsTotal (Int × Int) rangeLE :=
  ⟨fun a b => Int.le_total a.1 b.1⟩

instance : IsTrans (Int × Int) rangeLE :=
  ⟨fun _ _ _ h h2 => le_trans h h2⟩

/-- `vac_ranges_sorted = sorted(vac_ranges, key=lambda x: x[0])` (`app.py` line 217). -/
def sortedVacs (cfg : Config) : List (Int × Int) :=
  List.insertionSort rangeLE cfg.vacRanges

/-- Pass 2 (`app.py` lines 216–238): redistribute each vacation range in ascending
order of range start. -/
def pass2 (cfg : Config) (ts : List Task) : List Task :=
  (sortedVacs cfg).foldl (processRange cfg) ts

/-- Whether the row at position `i` is a "Study Date" row. -/
def isStudy (ts : List Task) (i : Nat) : Bool :=
  match ts.get? i with
  | some t => decide (t.ttype = "Study Date")
  | none => false

/-- Snapshot of the "Study Date" rows (`study_rows = df_shifted[...].copy()`,
`app.py` line 242): position paired with the date it has when pass 3 starts. -/
def studyPairs (ts : List Task) : List (Nat × Int) :=
  ((List.range ts.length).filter (isStudy ts)).map fun i => (i, dateAt ts i)

/-- Ordering of snapshot pairs by date, for `study_rows.sort_values("Date")`. -/
def snapLE (p q : Nat × Int) : Prop :=
  p.2 ≤ q.2

instance : DecidableRel snapLE := fun p q => Int.decLe p.2 q.2

instance : IsTotal (Nat × Int) snapLE :=
  ⟨fun p q => Int.le_total p.2 q.2⟩

instance : IsTrans (Nat × Int) snapLE :=
  ⟨fun _ _ _ h h2 => le_trans h h2⟩

/-- The "Study Date" snapshot sorted ascending by date. -/
def sortedStudy (ts : List Task) : List (Nat × Int) :=
  List.insertionSort snapLE (studyPairs ts)

/-- One step of pass 3 (`app.py` lines 244–253): claim a free date or advance the
task past claimed dates and conference ranges. -/
def p3step (confs : List (Int × Int)) (st : List Task × List Int)
    (p : Nat × Int) : List Task × List Int :=
  if !(st.2.contains p.2) && !(inAnyRange confs p.2) then
    (st.1, p.2 :: st.2)
  else
    let c := findFree st.2 confs (p.2 + 1)
    (setDate st.1 p.1 c, c :: st.2)

/-- The pass-3 walk over the sorted snapshot with its `occupied` set. -/
def pass3core (confs : List (Int × Int)) (L : List (Nat × Int))
    (st : List Task × List Int) : List Task × List Int :=
  L.foldl (p3step confs) st

/-- Pass 3 (`app.py` lines 240–253): runs only when "Study Date" is among the
conference shift types. -/
def pass3 (cfg : Config) (ts : List Task) : List Task :=
  if cfg.confTypes.contains "Study Date" then
    (pass3core cfg.confRanges (sortedStudy ts) (ts, [])).1
  else ts

/-- The full resolver: pass 1, then pass 2, then pass 3 (`app.py` lines 197–253). -/
def resolve (cfg : Config) (ts : List Task) : List Task :=
  pass3 cfg (pass2 cfg (pass1 cfg ts))

/-- Number of rows (of any type) dated `D`; the quantity the pass-2 occupancy
snapshot counts. -/
def totalCount (ts : List Task) (D : Int) : Nat :=
  ts.countP fun t => decide (t.date = D)

/-- Number of rows of a vacation-shifted type dated `D`. -/
def vacCount (cfg : Config) (ts : List Task) (D : Int) : Nat :=
  ts.countP fun t => cfg.vacTypes.contains t.ttype && decide (t.date = D)

/-- The eight fixed task-type columns of the Master sheet (`app.py` lines 26–35). -/
def taskTypeNames : List String :=
  ["Study Date", "1-Day Review", "3-Day Review", "7-Day Review",
   "14-Day Review", "30-Day Review", "60-Day Review", "Final Review"]

/-- One row of the Master sheet: a Topic and the eight date cells (a blank cell
is `none`); cell values are already day numbers, since the spreadsheet-to-date
conversion is delegated to pandas. -/
structure MasterRow where
  topic : String
  cells : List (Option Int)
  deriving DecidableEq, Repr

/-- The date cell of a row in column `j` (missing = blank). -/
def cellAt (row : MasterRow) (j : Nat) : Option Int :=
  (row.cells.get? j).join

/-- Melt of the columns `cs` starting at column position `j`: pandas `melt` stacks
the value columns one after the other, each carrying all rows in row order, and
`dropna` removes the rows born from blank cells (`app.py` lines 23–39). -/
def meltCols (rows : List MasterRow) : Nat → List String → List Task
  | _, [] => []
  | j, c :: cs =>
    (rows.filterMap fun row => (cellAt row j).map fun d => Task.mk row.topic c d)
      ++ meltCols rows (j + 1) cs

/-- `pd.melt(df_master, id_vars=["Topic"], value_vars=[...]).dropna(subset=["Date"])`. -/
def melt (rows : List MasterRow) : List Task :=
  meltCols rows 0 taskTypeNames

/-- No row of a vacation-shifted type is dated inside `[s, e]`. -/
def VacFree (cfg : Config) (s e : Int) (ts : List Task) : Prop :=
  ∀ i t, ts.get? i = some t → cfg.vacTypes.contains t.ttype = true →
    ¬(s ≤ t.date ∧ t.date ≤ e)

/-- No row of a conference-shifted type is dated inside any conference range. -/
def ConfFree (cfg : Config) (ts : List Task) : Prop :=
  ∀ i t, ts.get? i = some t → cfg.confTypes.contains t.ttype = true →
    inAnyRange cfg.confRanges t.date = false

/-- Pointwise refinement between two states of the table: same length, each row
keeps its Topic and Task Type, and its date may only move forward. -/
def StepLE (ts ts2 : List Task) : Prop :=
  ts2.length = ts.length ∧
  ∀ i t, ts.get? i = some t → ∃ t2, ts2.get? i = some t2 ∧
    t.topic = t2.topic ∧ t.ttype = t2.ttype ∧ t.date ≤ t2.date

/-! Concrete inputs used by the example scenarios, counterexamples and witnesses. -/

/-- Configuration with "Study Date" in both shift-type sets. -/
def cfgC1 : Config :=
  ⟨[(civil 2025 1 1, civil 2025 1 1)], [(civil 2025 6 10, civil 2025 6 11)],
   ["Study Date"], ["Study Date"]⟩

/-- Two "Study Date" tasks on the same day just before a vacation range. -/
def tsC1 : List Task :=
  [⟨"T1", "Study Date", civil 2025 6 9⟩, ⟨"T2", "Study Date", civil 2025 6 9⟩]

/-- The default conference/vacation configuration of the sidebar. -/
def cfgC2 : Config :=
  ⟨[(civil 2025 6 23, civil 2025 6 25)], [(civil 2025 5 31, civil 2025 6 1)],
   ["Study Date"],
   ["1-Day Review", "3-Day Review", "7-Day Review", "14-Day Review",
    "30-Day Review", "60-Day Review", "Final Review"]⟩

/-- A single displaceable task dated inside the conference range. -/
def tsC2 : List Task :=
  [⟨"Topic A", "Study Date", civil 2025 6 24⟩]

/-- Vacation range ending 2025-06-01 with "1-Day Review" selected for redistribution. -/
def cfgC3 : Config :=
  ⟨[(civil 2025 6 23, civil 2025 6 25)], [(civil 2025 5 26, civil 2025 6 1)],
   ["Study Date"], ["1-Day Review"]⟩

/-- Seven capacity-limited tasks all dated inside the vacation range. -/
def tsC3 : List Task :=
  [⟨"T1", "1-Day Review", civil 2025 5 28⟩, ⟨"T2", "1-Day Review", civil 2025 5 28⟩,
   ⟨"T3", "1-Day Review", civil 2025 5 28⟩, ⟨"T4", "1-Day Review", civil 2025 5 28⟩,
   ⟨"T5", "1-Day Review", civil 2025 5 28⟩, ⟨"T6", "1-Day Review", civil 2025 5 28⟩,
   ⟨"T7", "1-Day Review", civil 2025 5 28⟩]

/-- A conference range sitting on the first day after the vacation range. -/
def cfgC3x : Config :=
  ⟨[(civil 2025 6 12, civil 2025 6 12)], [(civil 2025 6 10, civil 2025 6 11)],
   ["Study Date"], ["1-Day Review"]⟩

/-- One redistributable task inside the vacation range. -/
def tsC3x : List Task :=
  [⟨"T1", "1-Day Review", civil 2025 6 10⟩]

/-- Same shape as `cfgC1`: "Study Date" in both shift-type sets. -/
def cfgC4 : Config :=
  ⟨[(civil 2025 1 1, civil 2025 1 1)], [(civil 2025 6 10, civil 2025 6 11)],
   ["Study Date"], ["Study Date"]⟩

/-- Two colliding "Study Date" tasks just before a vacation range. -/
def tsC4 : List Task :=
  [⟨"T1", "Study Date", civil 2025 6 9⟩, ⟨"T2", "Study Date", civil 2025 6 9⟩]

/-- Configuration whose vacation range lies after the tasks. -/
def cfgC5 : Config :=
  ⟨[(civil 2025 12 1, civil 2025 12 2)], [(civil 2025 6 10, civil 2025 6 11)],
   ["Study Date"], ["1-Day Review"]⟩

/-- Seven tasks of the vacation-shifted type sharing a date outside every range. -/
def tsC5 : List Task :=
  [⟨"T1", "1-Day Review", civil 2025 6 1⟩, ⟨"T2", "1-Day Review", civil 2025 6 1⟩,
   ⟨"T3", "1-Day Review", civil 2025 6 1⟩, ⟨"T4", "1-Day Review", civil 2025 6 1⟩,
   ⟨"T5", "1-Day Review", civil 2025 6 1⟩, ⟨"T6", "1-Day Review", civil 2025 6 1⟩,
   ⟨"T7", "1-Day Review", civil 2025 6 1⟩]

/-- A one-row Master sheet with two non-blank cells. -/
def rowsC9 : List MasterRow :=
  [⟨"Amino Acids", [some (civil 2025 6 1), some (civil 2025 6 2), none, none,
                    none, none, none, none]⟩]

/-! ### Basic lemmas about ranges, counters and the scanning loops -/

theorem contains_true_iff {α : Type} [BEq α] [LawfulBEq α] (l : List α) (a : α) :
    l.contains a = true ↔ a ∈ l := by
  simp

theorem inAnyRange_iff {rs : List (Int × Int)} {d : Int} :
    inAnyRange rs d = true ↔ ∃ r ∈ rs, r.1 ≤ d ∧ d ≤ r.2 := by
  simp [inAnyRange]

theorem snd_le_rangeBound {rs : List (Int × Int)} {r : Int × Int} (h : r ∈ rs) :
    r.2 ≤ rangeBound rs := by
  induction rs with
  | nil => cases h
  | cons a rs ih =>
    simp only [rangeBound, List.foldr_cons]
    rcases List.mem_cons.mp h with h | h
    · exact h ▸ le_max_left _ _
    · exact le_trans (ih h) (le_max_right _ _)

theorem le_rangeBound {rs : List (Int × Int)} {d : Int} (h : inAnyRange rs d = true) :
    d ≤ rangeBound rs := by
  rcases inAnyRange_iff.mp h with ⟨r, hr, _, h2⟩
  exact le_trans h2 (snd_le_rangeBound hr)

theorem lookupCount_bump (c : List (Int × Nat)) (x y : Int) :
    lookupCount (bump c x) y = if x = y then lookupCount c x + 1 else lookupCount c y := by
  by_cases h : x = y <;> simp [bump, lookupCount, List.find?, h]

theorem fst_le_keyBound {c : List (Int × Nat)} {p : Int × Nat} (h : p ∈ c) :
    p.1 ≤ keyBound c := by
  induction c with
  | nil => cases h
  | cons a c ih =>
    simp only [keyBound, List.foldr_cons]
    rcases List.mem_cons.mp h with h | h
    · exact h ▸ le_max_left _ _
    · exact le_trans (ih h) (le_max_right _ _)

theorem le_keyBound_of_lookup_pos {c : List (Int × Nat)} {x : Int}
    (h : 0 < lookupCount c x) : x ≤ keyBound c := by
  unfold lookupCount at h
  rcases hf : c.find? (fun p => decide (p.1 = x)) with _ | p
  · rw [hf] at h; simp at h
  · have hx : p.1 = x := by
      have := List.find?_some hf
      simpa using this
    exact hx ▸ fst_le_keyBound (List.mem_of_find?_eq_some hf)

theorem le_occBound {occ : List Int} {x : Int} (h : x ∈ occ) : x ≤ occBound occ := by
  induction occ with
  | nil => cases h
  | cons a occ ih =>
    simp only [occBound, List.foldr_cons]
    rcases List.mem_cons.mp h with h | h
    · exact h ▸ le_max_left _ _
    · exact le_trans (ih h) (le_max_right _ _)

theorem pushPastF_spec :
    ∀ (fuel : Nat) (rs : List (Int × Int)) (d : Int),
      (rangeBound rs + 1 - d).toNat ≤ fuel →
      inAnyRange rs (pushPastF fuel rs d) = false ∧
      d ≤ pushPastF fuel rs d ∧
      ∀ e, d ≤ e → e < pushPastF fuel rs d → inAnyRange rs e = true := by
  intro fuel
  induction fuel with
  | zero =>
    intro rs d h
    have hout : inAnyRange rs d = false := by
      cases hin : inAnyRange rs d
      · rfl
      · exact absurd (le_rangeBound hin) (by omega)
    exact ⟨hout, le_refl d, fun e he1 he2 => absurd he2 (by simp [pushPastF]; omega)⟩
  | succ n ih =>
    intro rs d h
    cases hin : inAnyRange rs d with
    | false =>
      have heq : pushPastF (n + 1) rs d = d := by
        simp [pushPastF, hin]
      rw [heq]
      exact ⟨hin, le_refl d, fun e he1 he2 => absurd he2 (by omega)⟩
    | true =>
      have hd : d ≤ rangeBound rs := le_rangeBound hin
      have hrec := ih rs (d + 1) (by omega)
      have heq : pushPastF (n + 1) rs d = pushPastF n rs (d + 1) := by
        simp [pushPastF, hin]
      rw [heq]
      refine ⟨hrec.1, le_trans (by omega) hrec.2.1, ?_⟩
      intro e he1 he2
      rcases eq_or_lt_of_le he1 with rfl | hlt
      · exact hin
      · exact hrec.2.2 e (by omega) he2

theorem pushPast_spec (rs : List (Int × Int)) (d : Int) :
    inAnyRange rs (pushPast rs d) = false ∧
    d ≤ pushPast rs d ∧
    ∀ e, d ≤ e → e < pushPast rs d → inAnyRange rs e = true := by
  unfold pushPast
  exact pushPastF_spec _ rs d (le_refl _)

theorem pushPast_le (rs : List (Int × Int)) (d : Int) :
    pushPast rs d ≤ max d (rangeBound rs + 1) := by
  rcases pushPast_spec rs d with ⟨_, hge, hmin⟩
  rcases eq_or_lt_of_le hge with heq | hlt
  · omega
  · have hin := hmin (pushPast rs d - 1) (by omega) (by omega)
    have := le_rangeBound hin
    omega

theorem findSlotF_spec :
    ∀ (fuel : Nat) (counts : List (Int × Nat)) (confs : List (Int × Int)) (d : Int),
      (max (keyBound counts) (rangeBound confs) + 1 - d).toNat ≤ fuel →
      (decide (6 ≤ lookupCount counts (findSlotF fuel counts confs d))
        || inAnyRange confs (findSlotF fuel counts confs d)) = false ∧
      d ≤ findSlotF fuel counts confs d ∧
      ∀ e, d ≤ e → e < findSlotF fuel counts confs d →
        (decide (6 ≤ lookupCount counts e) || inAnyRange confs e) = true := by
  intro fuel
  induction fuel with
  | zero =>
    intro counts confs d h
    have hout : (decide (6 ≤ lookupCount counts d) || inAnyRange confs d) = false := by
      cases hg : (decide (6 ≤ lookupCount counts d) || inAnyRange confs d)
      · rfl
      · rcases Bool.or_eq_true_iff.mp hg with h6 | hin
        · have hk : d ≤ keyBound counts :=
            le_keyBound_of_lookup_pos (by simp at h6; omega)
          exact absurd hk (by omega)
        · exact absurd (le_rangeBound hin) (by omega)
    exact ⟨hout, le_refl d, fun e he1 he2 => absurd he2 (by simp [findSlotF]; omega)⟩
  | succ n ih =>
    intro counts confs d h
    cases hg : (decide (6 ≤ lookupCount counts d) || inAnyRange confs d) with
    | false =>
      have heq : findSlotF (n + 1) counts confs d = d := by
        simp only [findSlotF, hg, Bool.false_eq_true, if_false]
      rw [heq]
      exact ⟨hg, le_refl d, fun e he1 he2 => absurd he2 (by omega)⟩
    | true =>
      have hd : d ≤ max (keyBound counts) (rangeBound confs) := by
        rcases Bool.or_eq_true_iff.mp hg with h6 | hin
        · have hk : d ≤ keyBound counts :=
            le_keyBound_of_lookup_pos (by simp at h6; omega)
          omega
        · have := le_rangeBound hin
          omega
      have hrec := ih counts confs (d + 1) (by omega)
      have heq : findSlotF (n + 1) counts confs d = findSlotF n counts confs (d + 1) := by
        simp only [findSlotF, hg, if_true]
      rw [heq]
      refine ⟨hrec.1, le_trans (by omega) hrec.2.1, ?_⟩
      intro e he1 he2
      rcases eq_or_lt_of_le he1 with rfl | hlt
      · exact hg
      · exact hrec.2.2 e (by omega) he2

theorem findSlot_spec (counts : List (Int × Nat)) (confs : List (Int × Int)) (d : Int) :
    lookupCount counts (findSlot counts confs d) < 6 ∧
    inAnyRange confs (findSlot counts confs d) = false ∧
    d ≤ findSlot counts confs d ∧
    ∀ e, d ≤ e → e < findSlot counts confs d →
      6 ≤ lookupCount counts e ∨ inAnyRange confs e = true := by
  unfold findSlot
  rcases findSlotF_spec _ counts confs d (le_refl _) with ⟨h1, h2, h3⟩
  rcases Bool.or_eq_false_iff.mp h1 with ⟨ha, hb⟩
  refine ⟨by simpa using ha, hb, h2, fun e he1 he2 => ?_⟩
  rcases Bool.or_eq_true_iff.mp (h3 e he1 he2) with h | h
  · exact Or.inl (by simpa using h)
  · exact Or.inr h

theorem findSlot_le (counts : List (Int × Nat)) (confs : List (Int × Int)) (d : Int) :
    findSlot counts confs d ≤ max d (max (keyBound counts) (rangeBound confs) + 1) := by
  rcases findSlot_spec counts confs d with ⟨_, _, hge, hmin⟩
  rcases eq_or_lt_of_le hge with heq | hlt
  · omega
  · rcases hmin (findSlot counts confs d - 1) (by omega) (by omega) with h6 | hin
    · have hk := le_keyBound_of_lookup_pos (c := counts) (x := findSlot counts confs d - 1)
        (by omega)
      omega
    · have := le_rangeBound hin
      omega

theorem findFreeF_spec :
    ∀ (fuel : Nat) (occ : List Int) (confs : List (Int × Int)) (d : Int),
      (max (occBound occ) (rangeBound confs) + 1 - d).toNat ≤ fuel →
      (occ.contains (findFreeF fuel occ confs d)
        || inAnyRange confs (findFreeF fuel occ confs d)) = false ∧
      d ≤ findFreeF fuel occ confs d ∧
      ∀ e, d ≤ e → e < findFreeF fuel occ confs d →
        (occ.contains e || inAnyRange confs e) = true := by
  intro fuel
  induction fuel with
  | zero =>
    intro occ confs d h
    have hout : (occ.contains d || inAnyRange confs d) = false := by
      cases hg : (occ.contains d || inAnyRange confs d)
      · rfl
      · rcases Bool.or_eq_true_iff.mp hg with hc | hin
        · exact absurd (le_occBound ((contains_true_iff occ d).mp hc)) (by omega)
        · exact absurd (le_rangeBound hin) (by omega)
    exact ⟨hout, le_refl d, fun e he1 he2 => absurd he2 (by simp [findFreeF]; omega)⟩
  | succ n ih =>
    intro occ confs d h
    cases hg : (occ.contains d || inAnyRange confs d) with
    | false =>
      have heq : findFreeF (n + 1) occ confs d = d := by
        simp only [findFreeF, hg, Bool.false_eq_true, if_false]
      rw [heq]
      exact ⟨hg, le_refl d, fun e he1 he2 => absurd he2 (by omega)⟩
    | true =>
      have hd : d ≤ max (occBound occ) (rangeBound confs) := by
        rcases Bool.or_eq_true_iff.mp hg with hc | hin
        · have := le_occBound ((contains_true_iff occ d).mp hc)
          omega
        · have := le_rangeBound hin
          omega
      have hrec := ih occ confs (d + 1) (by omega)
      have heq : findFreeF (n + 1) occ confs d = findFreeF n occ confs (d + 1) := by
        simp only [findFreeF, hg, if_true]
      rw [heq]
      refine ⟨hrec.1, le_trans (by omega) hrec.2.1, ?_⟩
      intro e he1 he2
      rcases eq_or_lt_of_le he1 with rfl | hlt
      · exact hg
      · exact hrec.2.2 e (by omega) he2

theorem findFree_spec (occ : List Int) (confs : List (Int × Int)) (d : Int) :
    findFree occ confs d ∉ occ ∧
    inAnyRange confs (findFree occ confs d) = false ∧
    d ≤ findFree occ confs d := by
  unfold findFree
  rcases findFreeF_spec _ occ confs d (le_refl _) with ⟨h1, h2, _⟩
  rcases Bool.or_eq_false_iff.mp h1 with ⟨ha, hb⟩
  refine ⟨fun hmem => ?_, hb, h2⟩
  rw [(contains_true_iff occ _).mpr hmem] at ha
  cases ha

theorem findFree_le (occ : List Int) (confs : List (Int × Int)) (d : Int) :
    findFree occ confs d ≤ max d (max (occBound occ) (rangeBound confs) + 1) := by
  unfold findFree
  rcases findFreeF_spec _ occ confs d (le_refl _) with ⟨_, hge, hmin⟩
  rcases eq_or_lt_of_le hge with heq | hlt
  · omega
  · rcases Bool.or_eq_true_iff.mp
      (hmin (findFreeF (max (occBound occ) (rangeBound confs) + 1 - d).toNat occ confs d - 1)
        (by omega) (by omega)) with hc | hin
    · have := le_occBound ((contains_true_iff occ _).mp hc)
      omega
    · have := le_rangeBound hin
      omega


theorem length_setDate : ∀ (ts : List Task) (i : Nat) (c : Int),
    (setDate ts i c).length = ts.length := by
  intro ts
  induction ts with
  | nil => intro i c; rfl
  | cons t ts ih =>
    intro i c
    cases i with
    | zero => rfl
    | succ i => simpa [setDate] using ih i c

theorem get?_setDate_ne : ∀ (ts : List Task) (i j : Nat) (c : Int), i ≠ j →
    (setDate ts i c).get? j = ts.get? j := by
  intro ts
  induction ts with
  | nil => intro i j c _; rfl
  | cons t ts ih =>
    intro i j c hne
    cases i with
    | zero =>
      cases j with
      | zero => exact absurd rfl hne
      | succ j => rfl
    | succ i =>
      cases j with
      | zero => rfl
      | succ j => simpa [setDate] using ih i j c (by omega)

theorem get?_setDate_self : ∀ (ts : List Task) (i : Nat) (c : Int) (t : Task),
    ts.get? i = some t → (setDate ts i c).get? i = some { t with date := c } := by
  intro ts
  induction ts with
  | nil => intro i c t h; cases h
  | cons a ts ih =>
    intro i c t h
    cases i with
    | zero => cases h; rfl
    | succ i => simpa [setDate] using ih i c t (by simpa using h)

/-! ### Structure of the three passes -/

theorem pass1_length (cfg : Config) (ts : List Task) : (pass1 cfg ts).length = ts.length :=
  List.length_map _ _

theorem pass1_get? (cfg : Config) (ts : List Task) (i : Nat) :
    (pass1 cfg ts).get? i = (ts.get? i).map fun t =>
      if cfg.confTypes.contains t.ttype && inAnyRange cfg.confRanges t.date then
        { t with date := pushPast cfg.confRanges t.date }
      else t :=
  List.get?_map _ _ _

theorem mem_vacIdxs {cfg : Config} {r : Int × Int} {ts : List Task} {i : Nat} :
    i ∈ vacIdxs cfg r ts ↔ ∃ t, ts.get? i = some t ∧
      cfg.vacTypes.contains t.ttype = true ∧ r.1 ≤ t.date ∧ t.date ≤ r.2 := by
  unfold vacIdxs
  rw [List.mem_filter, List.mem_range]
  constructor
  · rintro ⟨hi, hcond⟩
    rcases hg : ts.get? i with _ | t
    · rw [hg] at hcond
      cases hcond
    · rw [hg] at hcond
      simp only [Bool.and_eq_true, decide_eq_true_eq] at hcond
      exact ⟨t, rfl, hcond.1.1, hcond.1.2, hcond.2⟩
  · rintro ⟨t, ht, h1, h2, h3⟩
    have hi : i < ts.length := by
      by_contra hge
      rw [List.get?_eq_none.mpr (by omega)] at ht
      cases ht
    refine ⟨hi, ?_⟩
    rw [ht]
    simp only [Bool.and_eq_true, decide_eq_true_eq]
    exact ⟨⟨h1, h2⟩, h3⟩

theorem vacIdxs_lt {cfg : Config} {r : Int × Int} {ts : List Task} {i : Nat}
    (h : i ∈ vacIdxs cfg r ts) : i < ts.length := by
  unfold vacIdxs at h
  exact List.mem_range.mp (List.mem_filter.mp h).1

theorem nodup_vacIdxs (cfg : Config) (r : Int × Int) (ts : List Task) :
    (vacIdxs cfg r ts).Nodup :=
  (List.nodup_range _).filter _

theorem mem_sortIdxs {ts : List Task} {idxs : List Nat} {i : Nat} :
    i ∈ sortIdxs ts idxs ↔ i ∈ idxs :=
  (List.perm_insertionSort _ idxs).mem_iff

theorem nodup_sortIdxs {ts : List Task} {idxs : List Nat} (h : idxs.Nodup) :
    (sortIdxs ts idxs).Nodup :=
  ((List.perm_insertionSort _ idxs).nodup_iff).mpr h

theorem placeAll_length (confs : List (Int × Int)) (e : Int) :
    ∀ (idxs : List Nat) (st : List Task × List (Int × Nat)),
      (placeAll confs e idxs st).1.length = st.1.length := by
  intro idxs
  induction idxs with
  | nil => intro st; rfl
  | cons j idxs ih =>
    intro st
    have := ih (placeStep confs e st j)
    simpa [placeAll, placeStep, length_setDate] using this

theorem placeAll_get?_not_mem (confs : List (Int × Int)) (e : Int) :
    ∀ (idxs : List Nat) (st : List Task × List (Int × Nat)) (i : Nat), i ∉ idxs →
      (placeAll confs e idxs st).1.get? i = st.1.get? i := by
  intro idxs
  induction idxs with
  | nil => intro st i _; rfl
  | cons j idxs ih =>
    intro st i hni
    have hij : i ∉ idxs := fun h => hni (List.mem_cons_of_mem _ h)
    have hj : j ≠ i := fun h => hni (h ▸ List.mem_cons_self _ _)
    calc (placeAll confs e (j :: idxs) st).1.get? i
        = (placeStep confs e st j).1.get? i := ih _ i hij
      _ = st.1.get? i := get?_setDate_ne _ _ _ _ hj

theorem placeAll_get?_mem (confs : List (Int × Int)) (e : Int) :
    ∀ (idxs : List Nat) (st : List Task × List (Int × Nat)) (i : Nat),
      idxs.Nodup → i ∈ idxs → i < st.1.length →
      ∃ t c, st.1.get? i = some t ∧
        (placeAll confs e idxs st).1.get? i = some { t with date := c } ∧
        e < c ∧ inAnyRange confs c = false := by
  intro idxs
  induction idxs with
  | nil => intro st i _ hmem; cases hmem
  | cons j idxs ih =>
    intro st i hnd hmem hlen
    have hnd2 : idxs.Nodup := (List.nodup_cons.mp hnd).2
    have hjn : j ∉ idxs := (List.nodup_cons.mp hnd).1
    have hex : ∃ t, st.1.get? i = some t := by
      rcases hg : st.1.get? i with _ | t
      · exact absurd (List.get?_eq_none.mp hg) (by omega)
      · exact ⟨t, rfl⟩
    obtain ⟨t, hg⟩ := hex
    rcases List.mem_cons.mp hmem with rfl | hmem2
    · refine ⟨t, findSlot st.2 confs (e + 1), hg, ?_, ?_, ?_⟩
      · have hstep : (placeStep confs e st i).1.get? i
            = some { t with date := findSlot st.2 confs (e + 1) } :=
          get?_setDate_self _ _ _ _ hg
        calc (placeAll confs e (i :: idxs) st).1.get? i
            = (placeStep confs e st i).1.get? i :=
              placeAll_get?_not_mem confs e idxs _ i hjn
          _ = some { t with date := findSlot st.2 confs (e + 1) } := hstep
      · have := (findSlot_spec st.2 confs (e + 1)).2.2.1
        omega
      · exact (findSlot_spec st.2 confs (e + 1)).2.1
    · have hji : j ≠ i := fun h => hjn (h ▸ hmem2)
      have hmid : (placeStep confs e st j).1.get? i = st.1.get? i :=
        get?_setDate_ne _ _ _ _ hji
      have hlen2 : i < (placeStep confs e st j).1.length := by
        simpa [placeStep, length_setDate] using hlen
      rcases ih (placeStep confs e st j) i hnd2 hmem2 hlen2 with ⟨t2, c, hget, hres, hc1, hc2⟩
      rw [hmid, hg] at hget
      injection hget with hg2
      subst hg2
      exact ⟨t, c, hg, hres, hc1, hc2⟩

theorem processRange_length (cfg : Config) (ts : List Task) (r : Int × Int) :
    (processRange cfg ts r).length = ts.length :=
  placeAll_length _ _ _ _

theorem processRange_not_collected {cfg : Config} {ts : List Task} {r : Int × Int} {i : Nat}
    (h : i ∉ vacIdxs cfg r ts) :
    (processRange cfg ts r).get? i = ts.get? i :=
  placeAll_get?_not_mem _ _ _ _ i (fun hmem => h (mem_sortIdxs.mp hmem))

theorem processRange_collected {cfg : Config} {ts : List Task} {r : Int × Int} {i : Nat}
    (h : i ∈ vacIdxs cfg r ts) :
    ∃ t c, ts.get? i = some t ∧
      (processRange cfg ts r).get? i = some { t with date := c } ∧
      r.2 < c ∧ inAnyRange cfg.confRanges c = false := by
  unfold processRange
  exact placeAll_get?_mem cfg.confRanges r.2 (sortIdxs ts (vacIdxs cfg r ts))
    (ts, initCounts ts r.2) i (nodup_sortIdxs (nodup_vacIdxs cfg r ts))
    (mem_sortIdxs.mpr h) (vacIdxs_lt h)

theorem dateAt_eq {ts : List Task} {i : Nat} {t : Task} (h : ts.get? i = some t) :
    dateAt ts i = t.date := by
  unfold dateAt
  rw [h]

theorem mem_studyPairs {ts : List Task} {p : Nat × Int} :
    p ∈ studyPairs ts ↔ ∃ t, ts.get? p.1 = some t ∧ t.ttype = "Study Date" ∧ p.2 = t.date := by
  constructor
  · intro hp
    rcases List.mem_map.mp hp with ⟨i, hi, hpi⟩
    have hcond := (List.mem_filter.mp hi).2
    unfold isStudy at hcond
    rcases hg : ts.get? i with _ | t
    · rw [hg] at hcond
      cases hcond
    · rw [hg] at hcond
      refine ⟨t, by rw [← hpi]; exact hg, by simpa using hcond, ?_⟩
      rw [← hpi]
      exact dateAt_eq hg
  · rintro ⟨t, hget, hty, hdate⟩
    have hi : p.1 < ts.length := by
      by_contra hge
      rw [List.get?_eq_none.mpr (by omega)] at hget
      cases hget
    refine List.mem_map.mpr ⟨p.1, List.mem_filter.mpr ⟨List.mem_range.mpr hi, ?_⟩, ?_⟩
    · unfold isStudy
      rw [hget]
      simpa using hty
    · rw [dateAt_eq hget, ← hdate]

theorem mem_sortedStudy {ts : List Task} {p : Nat × Int} :
    p ∈ sortedStudy ts ↔ p ∈ studyPairs ts :=
  (List.perm_insertionSort _ _).mem_iff

theorem p3step_pos {confs : List (Int × Int)} {st : List Task × List Int} {p : Nat × Int}
    (hb : (!(st.2.contains p.2) && !(inAnyRange confs p.2)) = true) :
    p3step confs st p = (st.1, p.2 :: st.2) := by
  unfold p3step
  rw [if_pos hb]

theorem p3step_neg {confs : List (Int × Int)} {st : List Task × List Int} {p : Nat × Int}
    (hb : ¬((!(st.2.contains p.2) && !(inAnyRange confs p.2)) = true)) :
    p3step confs st p =
      (setDate st.1 p.1 (findFree st.2 confs (p.2 + 1)),
       findFree st.2 confs (p.2 + 1) :: st.2) := by
  unfold p3step
  rw [if_neg hb]

theorem p3step_length (confs : List (Int × Int)) (st : List Task × List Int) (p : Nat × Int) :
    (p3step confs st p).1.length = st.1.length := by
  unfold p3step
  split
  · rfl
  · simp [length_setDate]

theorem pass3core_length (confs : List (Int × Int)) :
    ∀ (L : List (Nat × Int)) (st : List Task × List Int),
      (pass3core confs L st).1.length = st.1.length := by
  intro L
  induction L with
  | nil => intro st; rfl
  | cons p L ih =>
    intro st
    calc (pass3core confs (p :: L) st).1.length
        = (p3step confs st p).1.length := ih _
      _ = st.1.length := p3step_length confs st p

theorem pass3core_shape (confs : List (Int × Int)) :
    ∀ (L : List (Nat × Int)) (ts : List Task) (occ : List Int) (i : Nat),
      (pass3core confs L (ts, occ)).1.get? i = ts.get? i ∨
      ∃ t c d, ts.get? i = some t ∧
        (pass3core confs L (ts, occ)).1.get? i = some { t with date := c } ∧
        inAnyRange confs c = false ∧ (i, d) ∈ L ∧ d < c := by
  intro L
  induction L with
  | nil => intro ts occ i; exact Or.inl rfl
  | cons p L ih =>
    intro ts occ i
    by_cases hb : (!(List.contains occ p.2) && !(inAnyRange confs p.2)) = true
    · have hstep : pass3core confs (p :: L) (ts, occ) = pass3core confs L (ts, p.2 :: occ) := by
        show pass3core confs L (p3step confs (ts, occ) p) = _
        rw [p3step_pos hb]
      rw [hstep]
      rcases ih ts (p.2 :: occ) i with hl | ⟨t, c, d, h1, h2, h3, h4, h5⟩
      · exact Or.inl hl
      · exact Or.inr ⟨t, c, d, h1, h2, h3, List.mem_cons_of_mem _ h4, h5⟩
    · have hstep : pass3core confs (p :: L) (ts, occ) =
          pass3core confs L
            (setDate ts p.1 (findFree occ confs (p.2 + 1)),
             findFree occ confs (p.2 + 1) :: occ) := by
        show pass3core confs L (p3step confs (ts, occ) p) = _
        rw [p3step_neg hb]
      rw [hstep]
      have hcfree := (findFree_spec occ confs (p.2 + 1)).2.1
      have hcge := (findFree_spec occ confs (p.2 + 1)).2.2
      rcases ih (setDate ts p.1 (findFree occ confs (p.2 + 1)))
          (findFree occ confs (p.2 + 1) :: occ) i with hl | ⟨t, c, d, h1, h2, h3, h4, h5⟩
      · rw [hl]
        by_cases hpi : p.1 = i
        · subst hpi
          rcases hg : ts.get? p.1 with _ | t
          · refine Or.inl ?_
            rw [List.get?_eq_none.mpr]
            rw [length_setDate]
            exact List.get?_eq_none.mp hg
          · refine Or.inr ⟨t, findFree occ confs (p.2 + 1), p.2, rfl,
              get?_setDate_self _ _ _ _ hg, hcfree, List.mem_cons_self _ _, by omega⟩
        · exact Or.inl (get?_setDate_ne _ _ _ _ hpi)
      · by_cases hpi : p.1 = i
        · subst hpi
          rcases hg : ts.get? p.1 with _ | t0
          · have : (setDate ts p.1 (findFree occ confs (p.2 + 1))).get? p.1 = none := by
              rw [List.get?_eq_none.mpr]
              rw [length_setDate]
              exact List.get?_eq_none.mp hg
            rw [this] at h1
            cases h1
          · have hset := get?_setDate_self ts p.1 (findFree occ confs (p.2 + 1)) t0 hg
            rw [hset] at h1
            injection h1 with h1
            subst h1
            exact Or.inr ⟨t0, c, d, rfl, h2, h3, List.mem_cons_of_mem _ h4, h5⟩
        · rw [get?_setDate_ne _ _ _ _ hpi] at h1
          exact Or.inr ⟨t, c, d, h1, h2, h3, List.mem_cons_of_mem _ h4, h5⟩

/-! ### Conference containment (pass 1 establishes it, passes 2 and 3 preserve it) -/

theorem pass1_confFree (cfg : Config) (ts : List Task) : ConfFree cfg (pass1 cfg ts) := by
  intro i t hget hct
  rw [pass1_get?] at hget
  rcases hg : ts.get? i with _ | t0
  · rw [hg] at hget
    cases hget
  · rw [hg] at hget
    simp only [Option.map_some'] at hget
    injection hget with ht
    by_cases hc : (cfg.confTypes.contains t0.ttype && inAnyRange cfg.confRanges t0.date) = true
    · rw [if_pos hc] at ht
      subst ht
      exact (pushPast_spec cfg.confRanges t0.date).1
    · rw [if_neg hc] at ht
      subst ht
      cases hb : inAnyRange cfg.confRanges t0.date
      · rfl
      · exact absurd (by rw [hct, hb]; rfl) hc

theorem processRange_confFree {cfg : Config} {ts : List Task} (r : Int × Int)
    (h : ConfFree cfg ts) : ConfFree cfg (processRange cfg ts r) := by
  intro i t hget hct
  by_cases hi : i ∈ vacIdxs cfg r ts
  · rcases processRange_collected hi with ⟨t0, c, hg0, hres, hc1, hc2⟩
    rw [hres] at hget
    injection hget with ht
    subst ht
    exact hc2
  · rw [processRange_not_collected hi] at hget
    exact h i t hget hct

theorem foldl_confFree {cfg : Config} :
    ∀ (L : List (Int × Int)) (ts : List Task), ConfFree cfg ts →
      ConfFree cfg (L.foldl (processRange cfg) ts) := by
  intro L
  induction L with
  | nil => intro ts h; exact h
  | cons r L ih => intro ts h; exact ih _ (processRange_confFree r h)

theorem pass2_confFree {cfg : Config} {ts : List Task} (h : ConfFree cfg ts) :
    ConfFree cfg (pass2 cfg ts) :=
  foldl_confFree _ _ h

theorem pass3_confFree {cfg : Config} {ts : List Task} (h : ConfFree cfg ts) :
    ConfFree cfg (pass3 cfg ts) := by
  unfold pass3
  by_cases hs : cfg.confTypes.contains "Study Date" = true
  · rw [if_pos hs]
    intro i t hget hct
    rcases pass3core_shape cfg.confRanges (sortedStudy ts) ts [] i with
      hl | ⟨t0, c, d, hg0, hres, hc, _, _⟩
    · rw [hl] at hget
      exact h i t hget hct
    · rw [hres] at hget
      injection hget with ht
      subst ht
      exact hc
  · rw [if_neg hs]
    exact h

theorem resolve_confFree (cfg : Config) (ts : List Task) : ConfFree cfg (resolve cfg ts) :=
  pass3_confFree (pass2_confFree (pass1_confFree cfg ts))

/-! ### Vacation containment after pass 2 -/

theorem processRange_vacFree_self (cfg : Config) (ts : List Task) (r : Int × Int) :
    VacFree cfg r.1 r.2 (processRange cfg ts r) := by
  intro i t hget hvt hin
  by_cases hi : i ∈ vacIdxs cfg r ts
  · rcases processRange_collected hi with ⟨t0, c, hg0, hres, hc1, hc2⟩
    rw [hres] at hget
    injection hget with ht
    subst ht
    simp only at hin
    omega
  · rw [processRange_not_collected hi] at hget
    exact hi (mem_vacIdxs.mpr ⟨t, hget, hvt, hin.1, hin.2⟩)

theorem processRange_vacFree_mono {cfg : Config} {ts : List Task} {s e : Int} (r : Int × Int)
    (h : VacFree cfg s e ts) (hs : s ≤ r.1) : VacFree cfg s e (processRange cfg ts r) := by
  intro i t hget hvt hin
  by_cases hi : i ∈ vacIdxs cfg r ts
  · rcases processRange_collected hi with ⟨t0, c, hg0, hres, hc1, hc2⟩
    rw [hres] at hget
    injection hget with ht
    subst ht
    rcases mem_vacIdxs.mp hi with ⟨t1, hg1, hvt1, hr1, hr2⟩
    rw [hg0] at hg1
    injection hg1 with hg1
    subst hg1
    have hold := h i t0 hg0 (by simpa using hvt)
    simp only at hin
    omega
  · rw [processRange_not_collected hi] at hget
    exact h i t hget hvt hin

theorem foldl_vacFree {cfg : Config} {s e : Int} :
    ∀ (L : List (Int × Int)) (ts : List Task), VacFree cfg s e ts →
      (∀ x ∈ L, s ≤ x.1) → VacFree cfg s e (L.foldl (processRange cfg) ts) := by
  intro L
  induction L with
  | nil => intro ts h _; exact h
  | cons r L ih =>
    intro ts h hall
    exact ih _ (processRange_vacFree_mono r h (hall r (List.mem_cons_self _ _)))
      (fun x hx => hall x (List.mem_cons_of_mem _ hx))

theorem foldl_vacFree_all {cfg : Config} :
    ∀ (L : List (Int × Int)) (ts : List Task), L.Pairwise rangeLE →
      ∀ q ∈ L, VacFree cfg q.1 q.2 (L.foldl (processRange cfg) ts) := by
  intro L
  induction L with
  | nil => intro ts _ q hq; cases hq
  | cons r L ih =>
    intro ts hpw q hq
    have hpw2 := List.pairwise_cons.mp hpw
    rcases List.mem_cons.mp hq with rfl | hq2
    · exact foldl_vacFree L (processRange cfg ts q)
        (processRange_vacFree_self cfg ts q) (fun x hx => hpw2.1 x hx)
    · exact ih (processRange cfg ts r) hpw2.2 q hq2

theorem pass2_vacFree (cfg : Config) (ts : List Task) :
    ∀ q ∈ cfg.vacRanges, VacFree cfg q.1 q.2 (pass2 cfg ts) := by
  intro q hq
  have hsorted : (sortedVacs cfg).Pairwise rangeLE :=
    List.sorted_insertionSort rangeLE cfg.vacRanges
  have hqm : q ∈ sortedVacs cfg :=
    (List.perm_insertionSort rangeLE cfg.vacRanges).mem_iff.mpr hq
  exact foldl_vacFree_all (sortedVacs cfg) ts hsorted q hqm

/-! ### Dates only move forward; Topic and Task Type never change -/

theorem stepLE_refl (ts : List Task) : StepLE ts ts :=
  ⟨rfl, fun _ t hget => ⟨t, hget, rfl, rfl, le_refl _⟩⟩

theorem stepLE_trans {a b c : List Task} (h1 : StepLE a b) (h2 : StepLE b c) : StepLE a c := by
  refine ⟨h2.1.trans h1.1, fun i t hget => ?_⟩
  rcases h1.2 i t hget with ⟨t2, hg2, e1, e2, e3⟩
  rcases h2.2 i t2 hg2 with ⟨t3, hg3, f1, f2, f3⟩
  exact ⟨t3, hg3, e1.trans f1, e2.trans f2, le_trans e3 f3⟩

theorem pass1_stepLE (cfg : Config) (ts : List Task) : StepLE ts (pass1 cfg ts) := by
  refine ⟨pass1_length cfg ts, fun i t hget => ?_⟩
  rw [pass1_get?, hget]
  simp only [Option.map_some']
  by_cases hc : (cfg.confTypes.contains t.ttype && inAnyRange cfg.confRanges t.date) = true
  · rw [if_pos hc]
    exact ⟨_, rfl, rfl, rfl, (pushPast_spec cfg.confRanges t.date).2.1⟩
  · rw [if_neg hc]
    exact ⟨t, rfl, rfl, rfl, le_refl _⟩

theorem processRange_stepLE (cfg : Config) (ts : List Task) (r : Int × Int) :
    StepLE ts (processRange cfg ts r) := by
  refine ⟨processRange_length cfg ts r, fun i t hget => ?_⟩
  by_cases hi : i ∈ vacIdxs cfg r ts
  · rcases processRange_collected hi with ⟨t0, c, hg0, hres, hc1, hc2⟩
    rw [hget] at hg0
    injection hg0 with hg0
    subst hg0
    rcases mem_vacIdxs.mp hi with ⟨t1, hg1, _, _, hr2⟩
    rw [hget] at hg1
    injection hg1 with hg1
    subst hg1
    exact ⟨_, hres, rfl, rfl, by simp only; omega⟩
  · rw [processRange_not_collected hi]
    exact ⟨t, hget, rfl, rfl, le_refl _⟩

theorem foldl_stepLE (cfg : Config) :
    ∀ (L : List (Int × Int)) (ts : List Task), StepLE ts (L.foldl (processRange cfg) ts) := by
  intro L
  induction L with
  | nil => intro ts; exact stepLE_refl ts
  | cons r L ih =>
    intro ts
    exact stepLE_trans (processRange_stepLE cfg ts r) (ih (processRange cfg ts r))

theorem pass2_stepLE (cfg : Config) (ts : List Task) : StepLE ts (pass2 cfg ts) :=
  foldl_stepLE cfg (sortedVacs cfg) ts

theorem pass3_stepLE (cfg : Config) (ts : List Task) : StepLE ts (pass3 cfg ts) := by
  unfold pass3
  by_cases hs : cfg.confTypes.contains "Study Date" = true
  · rw [if_pos hs]
    refine ⟨pass3core_length cfg.confRanges (sortedStudy ts) (ts, []), fun i t hget => ?_⟩
    rcases pass3core_shape cfg.confRanges (sortedStudy ts) ts [] i with
      hl | ⟨t0, c, d, hg0, hres, hc, hmem, hdc⟩
    · rw [hl]
      exact ⟨t, hget, rfl, rfl, le_refl _⟩
    · rw [hget] at hg0
      injection hg0 with hg0
      subst hg0
      rcases mem_studyPairs.mp (mem_sortedStudy.mp hmem) with ⟨t1, hg1, _, hd1⟩
      rw [hget] at hg1
      injection hg1 with hg1
      subst hg1
      refine ⟨_, hres, rfl, rfl, ?_⟩
      simp only at hd1 ⊢
      omega
  · rw [if_neg hs]
    exact stepLE_refl ts

theorem resolve_stepLE (cfg : Config) (ts : List Task) : StepLE ts (resolve cfg ts) :=
  stepLE_trans (pass1_stepLE cfg ts)
    (stepLE_trans (pass2_stepLE cfg (pass1 cfg ts)) (pass3_stepLE cfg (pass2 cfg (pass1 cfg ts))))

/-! ### Pass 3 keeps "Study Date" dates pairwise distinct -/

theorem dateAt_setDate_ne {ts : List Task} {i j : Nat} {c : Int} (h : i ≠ j) :
    dateAt (setDate ts i c) j = dateAt ts j := by
  unfold dateAt
  rw [get?_setDate_ne _ _ _ _ h]

theorem nodup_fst_studyPairs (ts : List Task) : ((studyPairs ts).map Prod.fst).Nodup := by
  unfold studyPairs
  rw [List.map_map]
  have hcomp : (Prod.fst ∘ fun i => (i, dateAt ts i)) = id := rfl
  rw [hcomp, List.map_id]
  exact (List.nodup_range _).filter _

theorem nodup_fst_sortedStudy (ts : List Task) : ((sortedStudy ts).map Prod.fst).Nodup :=
  (((List.perm_insertionSort snapLE (studyPairs ts)).map Prod.fst).nodup_iff).mpr
    (nodup_fst_studyPairs ts)

theorem pass3core_not_mem (confs : List (Int × Int)) :
    ∀ (L : List (Nat × Int)) (ts : List Task) (occ : List Int) (i : Nat),
      i ∉ L.map Prod.fst →
      (pass3core confs L (ts, occ)).1.get? i = ts.get? i := by
  intro L
  induction L with
  | nil => intro ts occ i _; rfl
  | cons p L ih =>
    intro ts occ i hni
    have hit : i ∉ L.map Prod.fst := fun h => hni (List.mem_cons_of_mem _ h)
    have hip : p.1 ≠ i := fun h => hni (h ▸ List.mem_map_of_mem Prod.fst (List.mem_cons_self _ _))
    by_cases hb : (!(List.contains occ p.2) && !(inAnyRange confs p.2)) = true
    · have hstep : pass3core confs (p :: L) (ts, occ) = pass3core confs L (ts, p.2 :: occ) := by
        show pass3core confs L (p3step confs (ts, occ) p) = _
        rw [p3step_pos hb]
      rw [hstep]
      exact ih ts (p.2 :: occ) i hit
    · have hstep : pass3core confs (p :: L) (ts, occ) =
          pass3core confs L
            (setDate ts p.1 (findFree occ confs (p.2 + 1)),
             findFree occ confs (p.2 + 1) :: occ) := by
        show pass3core confs L (p3step confs (ts, occ) p) = _
        rw [p3step_neg hb]
      rw [hstep]
      rw [ih _ _ i hit]
      exact get?_setDate_ne _ _ _ _ hip

theorem pass3core_distinct (confs : List (Int × Int)) :
    ∀ (L : List (Nat × Int)) (ts : List Task) (occ : List Int),
      (L.map Prod.fst).Nodup →
      (∀ p ∈ L, p.1 < ts.length ∧ dateAt ts p.1 = p.2) →
      occ.Nodup →
      (∀ x ∈ occ, x ∈ (pass3core confs L (ts, occ)).2) ∧
      (pass3core confs L (ts, occ)).2.Nodup ∧
      (∀ p ∈ L, dateAt (pass3core confs L (ts, occ)).1 p.1 ∈ (pass3core confs L (ts, occ)).2 ∧
        dateAt (pass3core confs L (ts, occ)).1 p.1 ∉ occ) ∧
      (∀ p ∈ L, ∀ q ∈ L, p.1 ≠ q.1 →
        dateAt (pass3core confs L (ts, occ)).1 p.1 ≠ dateAt (pass3core confs L (ts, occ)).1 q.1) := by
  intro L
  induction L with
  | nil =>
    intro ts occ _ _ hocc
    exact ⟨fun x hx => hx, hocc, fun p hp => absurd hp (List.not_mem_nil p),
      fun p hp => absurd hp (List.not_mem_nil p)⟩
  | cons p L ih =>
    intro ts occ hnd halign hocc
    have hndL : (L.map Prod.fst).Nodup := (List.nodup_cons.mp (by simpa using hnd)).2
    have hpL : p.1 ∉ L.map Prod.fst := (List.nodup_cons.mp (by simpa using hnd)).1
    by_cases hb : (!(List.contains occ p.2) && !(inAnyRange confs p.2)) = true
    · -- the date is free: claim it
      have hfree : p.2 ∉ occ := by
        intro hmem
        rw [(contains_true_iff occ p.2).mpr hmem] at hb
        simp at hb
      have hstep : pass3core confs (p :: L) (ts, occ) = pass3core confs L (ts, p.2 :: occ) := by
        show pass3core confs L (p3step confs (ts, occ) p) = _
        rw [p3step_pos hb]
      rw [hstep]
      have halign2 : ∀ q ∈ L, q.1 < ts.length ∧ dateAt ts q.1 = q.2 :=
        fun q hq => halign q (List.mem_cons_of_mem _ hq)
      have hocc2 : (p.2 :: occ).Nodup := List.nodup_cons.mpr ⟨hfree, hocc⟩
      rcases ih ts (p.2 :: occ) hndL halign2 hocc2 with ⟨hsub, hnd2, hmem2, hpair2⟩
      have hdp : dateAt (pass3core confs L (ts, p.2 :: occ)).1 p.1 = p.2 := by
        unfold dateAt
        rw [pass3core_not_mem confs L ts (p.2 :: occ) p.1 hpL]
        have := (halign p (List.mem_cons_self _ _)).2
        unfold dateAt at this
        exact this
      refine ⟨fun x hx => hsub x (List.mem_cons_of_mem _ hx), hnd2, ?_, ?_⟩
      · intro q hq
        rcases List.mem_cons.mp hq with rfl | hq2
        · constructor
          · rw [hdp]
            exact hsub _ (List.mem_cons_self _ _)
          · rw [hdp]
            exact hfree
        · exact ⟨(hmem2 q hq2).1, fun hmem => (hmem2 q hq2).2 (List.mem_cons_of_mem _ hmem)⟩
      · intro q hq q2 hq2 hne
        rcases List.mem_cons.mp hq with rfl | hq' <;> rcases List.mem_cons.mp hq2 with rfl | hq2'
        · exact absurd rfl hne
        · rw [hdp]
          intro heq
          exact (hmem2 q2 hq2').2 (by rw [← heq]; exact List.mem_cons_self _ _)
        · rw [hdp]
          intro heq
          exact (hmem2 q hq').2 (by rw [heq]; exact List.mem_cons_self _ _)
        · exact hpair2 q hq' q2 hq2' hne
    · -- the date is taken or blocked: move to a fresh one
      have hcfree := findFree_spec occ confs (p.2 + 1)
      have hstep : pass3core confs (p :: L) (ts, occ) =
          pass3core confs L
            (setDate ts p.1 (findFree occ confs (p.2 + 1)),
             findFree occ confs (p.2 + 1) :: occ) := by
        show pass3core confs L (p3step confs (ts, occ) p) = _
        rw [p3step_neg hb]
      rw [hstep]
      have hlen : p.1 < ts.length := (halign p (List.mem_cons_self _ _)).1
      have halign2 : ∀ q ∈ L,
          q.1 < (setDate ts p.1 (findFree occ confs (p.2 + 1))).length ∧
          dateAt (setDate ts p.1 (findFree occ confs (p.2 + 1))) q.1 = q.2 := by
        intro q hq
        have hqp : p.1 ≠ q.1 := by
          intro h
          exact hpL (h ▸ List.mem_map_of_mem Prod.fst hq)
        constructor
        · rw [length_setDate]
          exact (halign q (List.mem_cons_of_mem _ hq)).1
        · rw [dateAt_setDate_ne hqp]
          exact (halign q (List.mem_cons_of_mem _ hq)).2
      have hocc2 : (findFree occ confs (p.2 + 1) :: occ).Nodup :=
        List.nodup_cons.mpr ⟨hcfree.1, hocc⟩
      rcases ih (setDate ts p.1 (findFree occ confs (p.2 + 1)))
        (findFree occ confs (p.2 + 1) :: occ) hndL halign2 hocc2 with ⟨hsub, hnd2, hmem2, hpair2⟩
      have hdp : dateAt (pass3core confs L
          (setDate ts p.1 (findFree occ confs (p.2 + 1)),
           findFree occ confs (p.2 + 1) :: occ)).1 p.1 = findFree occ confs (p.2 + 1) := by
        unfold dateAt
        rw [pass3core_not_mem confs L _ _ p.1 hpL]
        have hex : ∃ t, ts.get? p.1 = some t := by
          rcases hg : ts.get? p.1 with _ | t
          · exact absurd (List.get?_eq_none.mp hg) (by omega)
          · exact ⟨t, rfl⟩
        rcases hex with ⟨t, hg⟩
        rw [get?_setDate_self _ _ _ _ hg]
      refine ⟨fun x hx => hsub x (List.mem_cons_of_mem _ hx), hnd2, ?_, ?_⟩
      · intro q hq
        rcases List.mem_cons.mp hq with rfl | hq2
        · constructor
          · rw [hdp]
            exact hsub _ (List.mem_cons_self _ _)
          · rw [hdp]
            exact hcfree.1
        · exact ⟨(hmem2 q hq2).1, fun hmem => (hmem2 q hq2).2 (List.mem_cons_of_mem _ hmem)⟩
      · intro q hq q2 hq2 hne
        rcases List.mem_cons.mp hq with rfl | hq' <;> rcases List.mem_cons.mp hq2 with rfl | hq2'
        · exact absurd rfl hne
        · rw [hdp]
          intro heq
          exact (hmem2 q2 hq2').2 (by rw [← heq]; exact List.mem_cons_self _ _)
        · rw [hdp]
          intro heq
          exact (hmem2 q hq').2 (by rw [heq]; exact List.mem_cons_self _ _)
        · exact hpair2 q hq' q2 hq2' hne

theorem pass3_study_distinct (cfg : Config) (ts : List Task)
    (hs : cfg.confTypes.contains "Study Date" = true) :
    ∀ i j ti tj, i ≠ j →
      (pass3 cfg ts).get? i = some ti → (pass3 cfg ts).get? j = some tj →
      ti.ttype = "Study Date" → tj.ttype = "Study Date" → ti.date ≠ tj.date := by
  intro i j ti tj hij hgi hgj hti htj
  unfold pass3 at hgi hgj
  rw [if_pos hs] at hgi hgj
  -- positions i and j carry Study rows already before pass 3 (types are preserved)
  have hshape := pass3core_shape cfg.confRanges (sortedStudy ts) ts [] i
  have hshape2 := pass3core_shape cfg.confRanges (sortedStudy ts) ts [] j
  have halign : ∀ p ∈ sortedStudy ts, p.1 < ts.length ∧ dateAt ts p.1 = p.2 := by
    intro p hp
    rcases mem_studyPairs.mp (mem_sortedStudy.mp hp) with ⟨t, hget, _, hd⟩
    constructor
    · by_contra hge
      rw [List.get?_eq_none.mpr (by omega)] at hget
      cases hget
    · rw [dateAt_eq hget, hd]
  rcases pass3core_distinct cfg.confRanges (sortedStudy ts) ts []
      (nodup_fst_sortedStudy ts) halign List.nodup_nil with ⟨_, _, _, hpair⟩
  -- identify the snapshot pairs at positions i and j
  have hpi : ∃ d, (i, d) ∈ sortedStudy ts := by
    rcases hshape with hl | ⟨t0, c, d, hg0, hres, _, hmem, _⟩
    · rw [hl] at hgi
      exact ⟨ti.date, mem_sortedStudy.mpr (mem_studyPairs.mpr ⟨ti, hgi, hti, rfl⟩)⟩
    · exact ⟨d, hmem⟩
  have hpj : ∃ d, (j, d) ∈ sortedStudy ts := by
    rcases hshape2 with hl | ⟨t0, c, d, hg0, hres, _, hmem, _⟩
    · rw [hl] at hgj
      exact ⟨tj.date, mem_sortedStudy.mpr (mem_studyPairs.mpr ⟨tj, hgj, htj, rfl⟩)⟩
    · exact ⟨d, hmem⟩
  rcases hpi with ⟨di, hmi⟩
  rcases hpj with ⟨dj, hmj⟩
  have := hpair (i, di) hmi (j, dj) hmj hij
  rw [dateAt_eq hgi, dateAt_eq hgj] at this
  exact this

/-! ### Capacity accounting for pass 2 -/

theorem totalCount_nil (D : Int) : totalCount [] D = 0 := rfl

theorem totalCount_cons (t : Task) (ts : List Task) (D : Int) :
    totalCount (t :: ts) D = totalCount ts D + (if t.date = D then 1 else 0) := by
  unfold totalCount
  rw [List.countP_cons]
  by_cases h : t.date = D <;> simp [h]

theorem lookup_initCounts_aux :
    ∀ (ts : List Task) (acc : List (Int × Nat)) (e D : Int),
      lookupCount (ts.foldl (fun c t => if e < t.date then bump c t.date else c) acc) D =
        lookupCount acc D + (if e < D then totalCount ts D else 0) := by
  intro ts
  induction ts with
  | nil =>
    intro acc e D
    simp [totalCount_nil]
  | cons t ts ih =>
    intro acc e D
    rw [List.foldl_cons, ih, totalCount_cons]
    by_cases ht : e < t.date
    · rw [if_pos ht, lookupCount_bump]
      split_ifs with h1 h2 <;> (try subst h1) <;> (try subst h2) <;> omega
    · rw [if_neg ht]
      split_ifs with h1 h2 <;> (try subst h1) <;> (try subst h2) <;> omega

theorem lookup_initCounts (ts : List Task) (e D : Int) :
    lookupCount (initCounts ts e) D = if e < D then totalCount ts D else 0 := by
  unfold initCounts
  rw [lookup_initCounts_aux]
  simp [lookupCount]

theorem totalCount_setDate :
    ∀ (ts : List Task) (i : Nat) (c : Int) (t : Task) (D : Int), ts.get? i = some t →
      totalCount (setDate ts i c) D + (if t.date = D then 1 else 0) =
        totalCount ts D + (if c = D then 1 else 0) := by
  intro ts
  induction ts with
  | nil => intro i c t D h; cases h
  | cons a ts ih =>
    intro i c t D h
    cases i with
    | zero =>
      injection h with h
      subst h
      simp only [setDate, totalCount_cons]
      split_ifs <;> omega
    | succ i =>
      have h2 : ts.get? i = some t := by simpa using h
      have := ih i c t D h2
      simp only [setDate, totalCount_cons]
      omega

theorem placeAll_capacity (confs : List (Int × Int)) (e : Int) :
    ∀ (idxs : List Nat) (ts : List Task) (counts : List (Int × Nat)),
      idxs.Nodup →
      (∀ i ∈ idxs, ∃ t, ts.get? i = some t ∧ t.date ≤ e) →
      (∀ D, e < D → lookupCount counts D = totalCount ts D) →
      (∀ D, totalCount ts D ≤ 6) →
      ∀ D, totalCount (placeAll confs e idxs (ts, counts)).1 D ≤ 6 := by
  intro idxs
  induction idxs with
  | nil => intro ts counts _ _ _ h6 D; exact h6 D
  | cons i idxs ih =>
    intro ts counts hnd hdates hacc h6
    rcases hdates i (List.mem_cons_self _ _) with ⟨t, hget, hte⟩
    have hnd2 : idxs.Nodup := (List.nodup_cons.mp hnd).2
    have hin : i ∉ idxs := (List.nodup_cons.mp hnd).1
    rcases findSlot_spec counts confs (e + 1) with ⟨hlt6, hnc, hge, _⟩
    show ∀ D, totalCount (placeAll confs e idxs
      (setDate ts i (findSlot counts confs (e + 1)),
       bump counts (findSlot counts confs (e + 1)))).1 D ≤ 6
    obtain ⟨C, hC⟩ : ∃ C, findSlot counts confs (e + 1) = C := ⟨_, rfl⟩
    rw [hC] at hlt6 hnc hge ⊢
    have hce : e < C := by omega
    have hltc : totalCount ts C < 6 := by
      rw [← hacc C hce]
      exact hlt6
    apply ih (setDate ts i C) (bump counts C) hnd2
    · intro j hj
      have hij : i ≠ j := fun h => hin (h ▸ hj)
      rcases hdates j (List.mem_cons_of_mem _ hj) with ⟨tj, hgj, htj⟩
      exact ⟨tj, by rw [get?_setDate_ne _ _ _ _ hij]; exact hgj, htj⟩
    · intro D hD
      rw [lookupCount_bump]
      have htD : ¬(t.date = D) := by omega
      have hsd := totalCount_setDate ts i C t D hget
      rw [if_neg htD] at hsd
      split_ifs with hcD
      · rw [if_pos hcD] at hsd
        rw [← hcD] at hsd ⊢
        have h1 := hacc C hce
        omega
      · rw [if_neg hcD] at hsd
        have h1 := hacc D hD
        omega
    · intro D
      have h6D := h6 D
      have hsd := totalCount_setDate ts i C t D hget
      by_cases hcD : C = D
      · rw [if_pos hcD] at hsd
        rw [← hcD] at hsd h6D ⊢
        have htD : ¬(t.date = C) := by omega
        rw [if_neg htD] at hsd
        omega
      · rw [if_neg hcD] at hsd
        by_cases htD : t.date = D
        · rw [if_pos htD] at hsd
          omega
        · rw [if_neg htD] at hsd
          omega

theorem processRange_capacity (cfg : Config) (ts : List Task) (r : Int × Int)
    (h6 : ∀ D, totalCount ts D ≤ 6) :
    ∀ D, totalCount (processRange cfg ts r) D ≤ 6 := by
  unfold processRange
  apply placeAll_capacity cfg.confRanges r.2 (sortIdxs ts (vacIdxs cfg r ts)) ts
    (initCounts ts r.2) (nodup_sortIdxs (nodup_vacIdxs cfg r ts))
  · intro i hi
    rcases mem_vacIdxs.mp (mem_sortIdxs.mp hi) with ⟨t, hget, _, _, hr2⟩
    exact ⟨t, hget, hr2⟩
  · intro D hD
    rw [lookup_initCounts, if_pos hD]
  · exact h6

theorem pass2_capacity (cfg : Config) :
    ∀ (L : List (Int × Int)) (ts : List Task), (∀ D, totalCount ts D ≤ 6) →
      ∀ D, totalCount (L.foldl (processRange cfg) ts) D ≤ 6 := by
  intro L
  induction L with
  | nil => intro ts h D; exact h D
  | cons r L ih => intro ts h; exact ih _ (processRange_capacity cfg ts r h)

theorem vacCount_le_totalCount (cfg : Config) (ts : List Task) (D : Int) :
    vacCount cfg ts D ≤ totalCount ts D := by
  unfold vacCount totalCount
  induction ts with
  | nil => exact le_refl _
  | cons t ts ih =>
    rw [List.countP_cons, List.countP_cons]
    have hle : (if (cfg.vacTypes.contains t.ttype && decide (t.date = D)) = true then 1 else 0)
        ≤ (if decide (t.date = D) = true then 1 else 0) := by
      cases hc : cfg.vacTypes.contains t.ttype <;> cases hd : decide (t.date = D) <;>
        simp [hc, hd]
    omega

/-! ### Vacation containment at the level of the full resolver -/

theorem resolve_vacFree (cfg : Config) (ts : List Task) :
    ∀ i t, (resolve cfg ts).get? i = some t →
      cfg.vacTypes.contains t.ttype = true →
      (t.ttype ≠ "Study Date" ∨ cfg.confTypes.contains "Study Date" = false) →
      ∀ r ∈ cfg.vacRanges, ¬(r.1 ≤ t.date ∧ t.date ≤ r.2) := by
  intro i t hget hvt hcond r hr hin
  have h2 := pass2_vacFree cfg (pass1 cfg ts) r hr
  unfold resolve at hget
  rcases hcond with hne | hno
  · by_cases hs : cfg.confTypes.contains "Study Date" = true
    · unfold pass3 at hget
      rw [if_pos hs] at hget
      rcases pass3core_shape cfg.confRanges (sortedStudy (pass2 cfg (pass1 cfg ts)))
          (pass2 cfg (pass1 cfg ts)) [] i with hl | ⟨t0, c, d, hg0, hres, _, hmem, _⟩
      · rw [hl] at hget
        exact h2 i t hget hvt ⟨hin.1, hin.2⟩
      · rw [hres] at hget
        injection hget with ht
        subst ht
        rcases mem_studyPairs.mp (mem_sortedStudy.mp hmem) with ⟨tS, hgS, htyS, _⟩
        rw [hg0] at hgS
        injection hgS with hgS
        subst hgS
        exact hne htyS
    · unfold pass3 at hget
      rw [if_neg hs] at hget
      exact h2 i t hget hvt ⟨hin.1, hin.2⟩
  · unfold pass3 at hget
    rw [if_neg (by rw [hno]; simp)] at hget
    exact h2 i t hget hvt ⟨hin.1, hin.2⟩

/-! ### Identity lemmas: a resolved table is a fixed point of each pass -/

theorem map_id_on {α : Type} (f : α → α) :
    ∀ (l : List α), (∀ a ∈ l, f a = a) → l.map f = l := by
  intro l
  induction l with
  | nil => intro _; rfl
  | cons a l ih =>
    intro h
    rw [List.map_cons, h a (List.mem_cons_self _ _),
      ih (fun b hb => h b (List.mem_cons_of_mem _ hb))]

theorem pass1_id {cfg : Config} {ts : List Task}
    (h : ∀ t ∈ ts, cfg.confTypes.contains t.ttype = true →
      inAnyRange cfg.confRanges t.date = false) :
    pass1 cfg ts = ts := by
  unfold pass1
  apply map_id_on
  intro t ht
  apply if_neg
  intro hc
  simp only [Bool.and_eq_true] at hc
  rw [h t ht hc.1] at hc
  simpa using hc.2

theorem vacIdxs_nil {cfg : Config} {r : Int × Int} {ts : List Task}
    (h : VacFree cfg r.1 r.2 ts) : vacIdxs cfg r ts = [] := by
  rw [List.eq_nil_iff_forall_not_mem]
  intro i hi
  rcases mem_vacIdxs.mp hi with ⟨t, hget, hvt, h1, h2⟩
  exact h i t hget hvt ⟨h1, h2⟩

theorem processRange_id {cfg : Config} {ts : List Task} {r : Int × Int}
    (h : vacIdxs cfg r ts = []) : processRange cfg ts r = ts := by
  unfold processRange
  rw [h]
  rfl

theorem foldl_id {cfg : Config} :
    ∀ (L : List (Int × Int)) (ts : List Task), (∀ r ∈ L, vacIdxs cfg r ts = []) →
      L.foldl (processRange cfg) ts = ts := by
  intro L
  induction L with
  | nil => intro ts _; rfl
  | cons r L ih =>
    intro ts h
    rw [List.foldl_cons, processRange_id (h r (List.mem_cons_self _ _))]
    exact ih ts (fun q hq => h q (List.mem_cons_of_mem _ hq))

theorem pass2_id {cfg : Config} {ts : List Task}
    (h : ∀ r ∈ cfg.vacRanges, VacFree cfg r.1 r.2 ts) : pass2 cfg ts = ts := by
  unfold pass2
  apply foldl_id
  intro r hr
  exact vacIdxs_nil (h r ((List.perm_insertionSort rangeLE cfg.vacRanges).mem_iff.mp hr))

theorem pass3core_id (confs : List (Int × Int)) :
    ∀ (L : List (Nat × Int)) (ts : List Task) (occ : List Int),
      (L.map Prod.snd).Nodup →
      (∀ p ∈ L, p.2 ∉ occ ∧ inAnyRange confs p.2 = false) →
      (pass3core confs L (ts, occ)).1 = ts := by
  intro L
  induction L with
  | nil => intro ts occ _ _; rfl
  | cons p L ih =>
    intro ts occ hnd hfree
    have hndL : (L.map Prod.snd).Nodup := (List.nodup_cons.mp (by simpa using hnd)).2
    have hpL : p.2 ∉ L.map Prod.snd := (List.nodup_cons.mp (by simpa using hnd)).1
    have hcont : occ.contains p.2 = false := by
      cases hcc : occ.contains p.2
      · rfl
      · exact absurd ((contains_true_iff _ _).mp hcc) (hfree p (List.mem_cons_self _ _)).1
    have hcond : (!(occ.contains p.2) && !(inAnyRange confs p.2)) = true := by
      rw [hcont, (hfree p (List.mem_cons_self _ _)).2]
      rfl
    have hstep : pass3core confs (p :: L) (ts, occ) = pass3core confs L (ts, p.2 :: occ) := by
      show pass3core confs L (p3step confs (ts, occ) p) = _
      rw [p3step_pos hcond]
    rw [hstep]
    apply ih ts (p.2 :: occ) hndL
    intro q hq
    refine ⟨?_, (hfree q (List.mem_cons_of_mem _ hq)).2⟩
    intro hmem
    rcases List.mem_cons.mp hmem with heq | hmem2
    · exact hpL (heq ▸ List.mem_map_of_mem Prod.snd hq)
    · exact (hfree q (List.mem_cons_of_mem _ hq)).1 hmem2

theorem pass3_id_of {cfg : Config} {ts : List Task}
    (hs : cfg.confTypes.contains "Study Date" = true)
    (hnd : ((sortedStudy ts).map Prod.snd).Nodup)
    (hfree : ∀ p ∈ sortedStudy ts, inAnyRange cfg.confRanges p.2 = false) :
    pass3 cfg ts = ts := by
  unfold pass3
  rw [if_pos hs]
  exact pass3core_id cfg.confRanges (sortedStudy ts) ts [] hnd
    (fun p hp => ⟨List.not_mem_nil _, hfree p hp⟩)

/-! ### Idempotence of the resolver away from the double-shift overlap -/

theorem resolve_idem (cfg : Config) (ts : List Task)
    (h : cfg.confTypes.contains "Study Date" = false ∨
      cfg.vacTypes.contains "Study Date" = false) :
    resolve cfg (resolve cfg ts) = resolve cfg ts := by
  have hcf : ConfFree cfg (resolve cfg ts) := resolve_confFree cfg ts
  have h1 : pass1 cfg (resolve cfg ts) = resolve cfg ts := by
    apply pass1_id
    intro t ht hct
    rcases List.mem_iff_get?.mp ht with ⟨i, hgi⟩
    exact hcf i t hgi hct
  have h2 : pass2 cfg (resolve cfg ts) = resolve cfg ts := by
    apply pass2_id
    intro r hr
    intro i t hget hvt hin
    refine resolve_vacFree cfg ts i t hget hvt ?_ r hr hin
    rcases h with hc | hv
    · exact Or.inr hc
    · left
      intro heq
      rw [heq] at hvt
      rw [hvt] at hv
      cases hv
  have h3 : pass3 cfg (resolve cfg ts) = resolve cfg ts := by
    by_cases hs : cfg.confTypes.contains "Study Date" = true
    · apply pass3_id_of hs
      · have hfstP : (sortedStudy (resolve cfg ts)).Pairwise (fun p q => p.1 ≠ q.1) :=
          List.pairwise_map.mp (nodup_fst_sortedStudy (resolve cfg ts))
        have hsndP : (sortedStudy (resolve cfg ts)).Pairwise (fun p q => p.2 ≠ q.2) := by
          refine List.Pairwise.imp_of_mem ?_ hfstP
          intro p q hp hq hne
          rcases mem_studyPairs.mp (mem_sortedStudy.mp hp) with ⟨tp, hgp, htp, hdp⟩
          rcases mem_studyPairs.mp (mem_sortedStudy.mp hq) with ⟨tq, hgq, htq, hdq⟩
          have hdist := pass3_study_distinct cfg (pass2 cfg (pass1 cfg ts)) hs
            p.1 q.1 tp tq hne hgp hgq htp htq
          rw [hdp, hdq]
          exact hdist
        exact List.pairwise_map.mpr hsndP
      · intro p hp
        rcases mem_studyPairs.mp (mem_sortedStudy.mp hp) with ⟨t, hget, hty, hd⟩
        have := hcf p.1 t hget (by rw [hty]; exact hs)
        rw [hd]
        exact this
    · unfold pass3
      rw [if_neg hs]
  calc resolve cfg (resolve cfg ts)
      = pass3 cfg (pass2 cfg (pass1 cfg (resolve cfg ts))) := rfl
    _ = pass3 cfg (pass2 cfg (resolve cfg ts)) := by rw [h1]
    _ = pass3 cfg (resolve cfg ts) := by rw [h2]
    _ = resolve cfg ts := h3

/-! ### The melt transformation -/

theorem length_filterMap_count {α β : Type} (g : α → Option β) :
    ∀ (l : List α), (l.filterMap g).length = l.countP (fun a => (g a).isSome) := by
  intro l
  induction l with
  | nil => rfl
  | cons a l ih =>
    rw [List.filterMap_cons, List.countP_cons]
    cases h : g a <;> simp [h, ih]

theorem length_meltCols (rows : List MasterRow) :
    ∀ (cs : List String) (j : Nat),
      (meltCols rows j cs).length =
        ((List.range cs.length).map
          (fun k => rows.countP (fun row => (cellAt row (j + k)).isSome))).sum := by
  intro cs
  induction cs with
  | nil => intro j; simp [meltCols]
  | cons c cs ih =>
    intro j
    show ((rows.filterMap _) ++ meltCols rows (j + 1) cs).length = _
    rw [List.length_append, ih (j + 1), length_filterMap_count]
    rw [List.length_cons, List.range_succ_eq_map]
    simp only [List.map_cons, List.sum_cons, List.map_map]
    congr 1
    · apply List.countP_congr
      intro row _
      cases h : cellAt row (j + 0) <;> simp [Nat.add_zero] at h <;> simp [h]
    · congr 1
      apply List.map_congr_left
      intro k _
      simp only [Function.comp]
      rw [show j + 1 + k = j + Nat.succ k from by omega]

theorem mem_meltCols (rows : List MasterRow) :
    ∀ (cs : List String) (j : Nat) (t : Task),
      t ∈ meltCols rows j cs ↔
        ∃ row ∈ rows, ∃ k, cs.get? k = some t.ttype ∧
          cellAt row (j + k) = some t.date ∧ t.topic = row.topic := by
  intro cs
  induction cs with
  | nil => intro j t; simp [meltCols]
  | cons c cs ih =>
    intro j t
    show t ∈ (rows.filterMap _) ++ meltCols rows (j + 1) cs ↔ _
    rw [List.mem_append, List.mem_filterMap, ih (j + 1)]
    constructor
    · rintro (⟨row, hrow, hg⟩ | ⟨row, hrow, k, hk, hcell, htopic⟩)
      · rcases Option.map_eq_some'.mp hg with ⟨d, hd, ht⟩
        subst ht
        exact ⟨row, hrow, 0, by simp, by simpa [Nat.add_zero] using hd, rfl⟩
      · exact ⟨row, hrow, k + 1, by simpa using hk,
          by rw [show j + (k + 1) = j + 1 + k from by omega]; exact hcell, htopic⟩
    · rintro ⟨row, hrow, k, hk, hcell, htopic⟩
      cases k with
      | zero =>
        left
        refine ⟨row, hrow, ?_⟩
        rw [Option.map_eq_some']
        obtain ⟨tp, ty, dt⟩ := t
        simp only [List.get?] at hk
        injection hk with hk
        simp only at htopic
        subst hk
        subst htopic
        exact ⟨dt, by simpa [Nat.add_zero] using hcell, rfl⟩
      | succ k =>
        right
        exact ⟨row, hrow, k, by simpa using hk,
          by rw [show j + 1 + k = j + (k + 1) from by omega]; exact hcell, htopic⟩

/-! ### Claims -/

/-- C1 counterexample: with "Study Date" in both shift sets, the collision-avoidance
pass moves the second colliding "Study Date" task (originally 2025-06-09) onto
2025-06-10, which lies inside the configured vacation range [2025-06-10, 2025-06-11];
so after the full resolve a task whose type is in the vacation shift set sits inside
a vacation range, contradicting the claim. -/
theorem c1_counterexample :
    (resolve cfgC1 tsC1).get? 1 = some ⟨"T2", "Study Date", civil 2025 6 10⟩ ∧
    cfgC1.vacTypes.contains "Study Date" = true ∧
    inAnyRange cfgC1.vacRanges (civil 2025 6 10) = true := by
  decide

/-- C1 (amended): after the full resolve, no task whose type is in the conference
shift set has a date inside any conference range; and no task whose type is in the
vacation shift set has a date inside any vacation range, except possibly "Study Date"
tasks when "Study Date" is also in the conference shift set (the collision-avoidance
pass checks claimed dates and conference ranges but not vacation ranges). -/
theorem c1_containment_amended :
    ∀ (cfg : Config) (ts : List Task) (i : Nat) (t : Task),
      (resolve cfg ts).get? i = some t →
      (cfg.confTypes.contains t.ttype = true → inAnyRange cfg.confRanges t.date = false) ∧
      (cfg.vacTypes.contains t.ttype = true →
        (t.ttype ≠ "Study Date" ∨ cfg.confTypes.contains "Study Date" = false) →
        inAnyRange cfg.vacRanges t.date = false) := by
  intro cfg ts i t hget
  constructor
  · exact fun hct => resolve_confFree cfg ts i t hget hct
  · intro hvt hcond
    cases hin : inAnyRange cfg.vacRanges t.date
    · rfl
    · rcases inAnyRange_iff.mp hin with ⟨r, hr, h1, h2⟩
      exact absurd ⟨h1, h2⟩ (resolve_vacFree cfg ts i t hget hvt hcond r hr)

/-- C1 witness: the amended containment evaluated on the seven-review-task scenario. -/
theorem c1_witness :
    (resolve cfgC3 tsC3).get? 0 = some ⟨"T1", "1-Day Review", civil 2025 6 2⟩ ∧
    ((cfgC3.confTypes.contains "1-Day Review" = true →
        inAnyRange cfgC3.confRanges (civil 2025 6 2) = false) ∧
      (cfgC3.vacTypes.contains "1-Day Review" = true →
        ("1-Day Review" ≠ "Study Date" ∨ cfgC3.confTypes.contains "Study Date" = false) →
        inAnyRange cfgC3.vacRanges (civil 2025 6 2) = false)) :=
  ⟨by decide,
   c1_containment_amended cfgC3 tsC3 0 ⟨"T1", "1-Day Review", civil 2025 6 2⟩ (by decide)⟩

/-- C2: a conference-shift-type task dated inside a conference range is moved by the
push-past pass to the smallest date greater than its original date lying outside every
conference range, which is strictly after the end of every range containing it; and in
the concrete scenario (task dated 2025-06-24, single range [2025-06-23, 2025-06-25]
and the default vacation settings) the resolved date is 2025-06-26. -/
theorem c2_push_past :
    (∀ (cfg : Config) (ts : List Task) (i : Nat) (t : Task),
      ts.get? i = some t →
      cfg.confTypes.contains t.ttype = true →
      inAnyRange cfg.confRanges t.date = true →
      (pass1 cfg ts).get? i = some { t with date := pushPast cfg.confRanges t.date } ∧
      t.date < pushPast cfg.confRanges t.date ∧
      inAnyRange cfg.confRanges (pushPast cfg.confRanges t.date) = false ∧
      (∀ e, t.date < e → e < pushPast cfg.confRanges t.date →
        inAnyRange cfg.confRanges e = true) ∧
      (∀ r ∈ cfg.confRanges, r.1 ≤ t.date → t.date ≤ r.2 →
        r.2 < pushPast cfg.confRanges t.date)) ∧
    resolve cfgC2 tsC2 = [⟨"Topic A", "Study Date", civil 2025 6 26⟩] := by
  constructor
  · intro cfg ts i t hget hct hin
    rcases pushPast_spec cfg.confRanges t.date with ⟨hout, hge, hmin⟩
    have hlt : t.date < pushPast cfg.confRanges t.date := by
      rcases eq_or_lt_of_le hge with heq | hlt
      · rw [← heq] at hout
        rw [hin] at hout
        cases hout
      · exact hlt
    refine ⟨?_, hlt, hout, fun e he1 he2 => hmin e (by omega) he2, ?_⟩
    · rw [pass1_get?, hget]
      simp only [Option.map_some']
      rw [if_pos (by rw [hct, hin]; rfl)]
    · intro r hr h1 h2
      by_contra hle
      have hle2 : pushPast cfg.confRanges t.date ≤ r.2 := by omega
      have hinp : inAnyRange cfg.confRanges (pushPast cfg.confRanges t.date) = true :=
        inAnyRange_iff.mpr ⟨r, hr, by omega, hle2⟩
      rw [hout] at hinp
      cases hinp
  · decide

/-- C2 witness: the push-past characterization evaluated on the concrete scenario. -/
theorem c2_witness :
    tsC2.get? 0 = some ⟨"Topic A", "Study Date", civil 2025 6 24⟩ ∧
    (pass1 cfgC2 tsC2).get? 0 =
      some ⟨"Topic A", "Study Date", pushPast cfgC2.confRanges (civil 2025 6 24)⟩ ∧
    civil 2025 6 24 < pushPast cfgC2.confRanges (civil 2025 6 24) ∧
    inAnyRange cfgC2.confRanges (pushPast cfgC2.confRanges (civil 2025 6 24)) = false := by
  have h := c2_push_past.1 cfgC2 tsC2 0 ⟨"Topic A", "Study Date", civil 2025 6 24⟩
    (by decide) (by decide) (by decide)
  exact ⟨by decide, h.1, h.2.1, h.2.2.1⟩

/-- C3 counterexample: with a conference range on 2025-06-12 (the first day after the
vacation range ending 2025-06-11), the redistribution pass places the collected task on
2025-06-13 even though the occupancy of 2025-06-12 is 0, which is below 6; so the pass
does not place each task on the first date from rangeEnd+1 onward whose occupancy is
below 6 — the candidate must also avoid conference ranges. -/
theorem c3_counterexample :
    (resolve cfgC3x tsC3x).get? 0 = some ⟨"T1", "1-Day Review", civil 2025 6 13⟩ ∧
    civil 2025 6 13 ≠ civil 2025 6 12 ∧
    lookupCount (initCounts (pass1 cfgC3x tsC3x) (civil 2025 6 11)) (civil 2025 6 12) < 6 ∧
    inAnyRange cfgC3x.confRanges (civil 2025 6 12) = true := by
  decide

/-- C3 (amended): the redistribution pass processes vacation ranges in ascending order
of range start; the occupancy snapshot counts every task of any type dated strictly
after the range end; each collected task is placed on the first date from rangeEnd+1
onward whose occupancy is below 6 and which is not inside any conference range,
incrementing that date's count; and in the concrete scenario seven collected tasks land
six on 2025-06-02 and one on 2025-06-03. -/
theorem c3_redistribution_amended :
    (∀ cfg : Config, (sortedVacs cfg).Pairwise rangeLE ∧
      List.Perm (sortedVacs cfg) cfg.vacRanges ∧
      ∀ ts : List Task, pass2 cfg ts = (sortedVacs cfg).foldl (processRange cfg) ts) ∧
    (∀ (ts : List Task) (e D : Int),
      lookupCount (initCounts ts e) D = if e < D then totalCount ts D else 0) ∧
    (∀ (counts : List (Int × Nat)) (confs : List (Int × Int)) (d : Int),
      lookupCount counts (findSlot counts confs d) < 6 ∧
      inAnyRange confs (findSlot counts confs d) = false ∧
      d ≤ findSlot counts confs d ∧
      ∀ e, d ≤ e → e < findSlot counts confs d →
        6 ≤ lookupCount counts e ∨ inAnyRange confs e = true) ∧
    resolve cfgC3 tsC3 =
      [⟨"T1", "1-Day Review", civil 2025 6 2⟩, ⟨"T2", "1-Day Review", civil 2025 6 2⟩,
       ⟨"T3", "1-Day Review", civil 2025 6 2⟩, ⟨"T4", "1-Day Review", civil 2025 6 2⟩,
       ⟨"T5", "1-Day Review", civil 2025 6 2⟩, ⟨"T6", "1-Day Review", civil 2025 6 2⟩,
       ⟨"T7", "1-Day Review", civil 2025 6 3⟩] := by
  refine ⟨fun cfg => ⟨List.sorted_insertionSort rangeLE cfg.vacRanges,
    List.perm_insertionSort rangeLE cfg.vacRanges, fun ts => rfl⟩,
    lookup_initCounts, findSlot_spec, by decide⟩

/-- C3 witness: the occupancy and placement characterizations at concrete arguments. -/
theorem c3_witness :
    lookupCount (initCounts tsC3 (civil 2025 6 1)) (civil 2025 6 2) =
      (if (civil 2025 6 1 : Int) < civil 2025 6 2 then totalCount tsC3 (civil 2025 6 2)
       else 0) ∧
    lookupCount [] (findSlot [] cfgC3.confRanges (civil 2025 6 2)) < 6 ∧
    inAnyRange cfgC3.confRanges (findSlot [] cfgC3.confRanges (civil 2025 6 2)) = false :=
  ⟨c3_redistribution_amended.2.1 tsC3 (civil 2025 6 1) (civil 2025 6 2),
   (c3_redistribution_amended.2.2.1 [] cfgC3.confRanges (civil 2025 6 2)).1,
   (c3_redistribution_amended.2.2.1 [] cfgC3.confRanges (civil 2025 6 2)).2.1⟩

/-- C4 counterexample: with "Study Date" in both shift sets, the first resolve parks a
"Study Date" task inside the vacation range (via collision avoidance), and the second
resolve's redistribution pass moves it again; `resolve` is not idempotent. -/
theorem c4_counterexample :
    resolve cfgC4 (resolve cfgC4 tsC4) ≠ resolve cfgC4 tsC4 := by
  decide

/-- C4 (amended): re-running the full resolve on its own output changes no task's date
whenever "Study Date" is not simultaneously in both the conference and the vacation
shift sets; the counterexample shows idempotence fails in the overlapping case. -/
theorem c4_idempotent_amended :
    ∀ (cfg : Config) (ts : List Task),
      cfg.confTypes.contains "Study Date" = false ∨
        cfg.vacTypes.contains "Study Date" = false →
      resolve cfg (resolve cfg ts) = resolve cfg ts :=
  fun cfg ts h => resolve_idem cfg ts h

/-- C4 witness: idempotence on the seven-review-task scenario, where "Study Date" is a
conference shift type but not a vacation shift type. -/
theorem c4_witness :
    cfgC3.vacTypes.contains "Study Date" = false ∧
    resolve cfgC3 (resolve cfgC3 tsC3) = resolve cfgC3 tsC3 :=
  ⟨by decide, c4_idempotent_amended cfgC3 tsC3 (Or.inr (by decide))⟩

/-- C5 counterexample: seven tasks of the vacation-shifted type share the date
2025-06-01, which lies outside every configured range; the redistribution pass never
touches them, so after it completes that date holds 7 > 6 tasks of the relevant type. -/
theorem c5_counterexample :
    6 < vacCount cfgC5 (pass2 cfgC5 (pass1 cfgC5 tsC5)) (civil 2025 6 1) := by
  decide

/-- C5 (amended): if every calendar date holds at most 6 tasks in total when the
capacity-redistribution pass starts, then after the pass no date holds more than 6
tasks of the vacation-shifted types; without that premise the bound fails on dates the
pass never clears. -/
theorem c5_capacity_amended :
    ∀ (cfg : Config) (ts : List Task),
      (∀ D, totalCount ts D ≤ 6) →
      ∀ D, vacCount cfg (pass2 cfg ts) D ≤ 6 := by
  intro cfg ts h D
  exact le_trans (vacCount_le_totalCount cfg (pass2 cfg ts) D)
    (pass2_capacity cfg (sortedVacs cfg) ts h D)

/-- C5 witness: the amended capacity bound evaluated on a one-task table. -/
theorem c5_witness :
    totalCount tsC3x (civil 2025 6 10) ≤ 6 ∧
    vacCount cfgC3x (pass2 cfgC3x tsC3x) (civil 2025 6 13) ≤ 6 := by
  have hb : ∀ D, totalCount tsC3x D ≤ 6 :=
    fun D => le_trans (List.countP_le_length _) (by decide)
  exact ⟨hb _, c5_capacity_amended cfgC3x tsC3x hb (civil 2025 6 13)⟩

/-- C6: when "Study Date" is in the conference shift set, the collision-avoidance pass
leaves all "Study Date" tasks with pairwise distinct dates; moreover its candidate scan
returns the first date at or after its starting point that is neither claimed nor
inside a conference range. -/
theorem c6_study_collision_free :
    (∀ (occ : List Int) (confs : List (Int × Int)) (d : Int),
      findFree occ confs d ∉ occ ∧
      inAnyRange confs (findFree occ confs d) = false ∧
      d ≤ findFree occ confs d ∧
      ∀ e, d ≤ e → e < findFree occ confs d →
        (occ.contains e || inAnyRange confs e) = true) ∧
    ∀ (cfg : Config) (ts : List Task),
      cfg.confTypes.contains "Study Date" = true →
      ∀ i j ti tj, i ≠ j →
        (resolve cfg ts).get? i = some ti → (resolve cfg ts).get? j = some tj →
        ti.ttype = "Study Date" → tj.ttype = "Study Date" →
        ti.date ≠ tj.date := by
  constructor
  · intro occ confs d
    have h1 := findFree_spec occ confs d
    have h2 : ∀ e, d ≤ e → e < findFree occ confs d →
        (occ.contains e || inAnyRange confs e) = true := by
      unfold findFree
      exact (findFreeF_spec _ occ confs d (le_refl _)).2.2
    exact ⟨h1.1, h1.2.1, h1.2.2, h2⟩
  · intro cfg ts hs
    exact pass3_study_distinct cfg (pass2 cfg (pass1 cfg ts)) hs

/-- C6 witness: pairwise-distinct "Study Date" dates on the colliding two-task table. -/
theorem c6_witness :
    cfgC1.confTypes.contains "Study Date" = true ∧
    (resolve cfgC1 tsC1).get? 0 = some ⟨"T1", "Study Date", civil 2025 6 9⟩ ∧
    (resolve cfgC1 tsC1).get? 1 = some ⟨"T2", "Study Date", civil 2025 6 10⟩ ∧
    civil 2025 6 9 ≠ civil 2025 6 10 := by
  refine ⟨by decide, by decide, by decide, ?_⟩
  exact c6_study_collision_free.2 cfgC1 tsC1 (by decide) 0 1
    ⟨"T1", "Study Date", civil 2025 6 9⟩ ⟨"T2", "Study Date", civil 2025 6 10⟩
    (by decide) (by decide) (by decide) rfl rfl

/-- C7: each of the three forward scans terminates with a result that satisfies its
loop-exit condition and is bounded by calendar arithmetic (the scan never runs past
the largest configured range end, counter key, or claimed date plus one), so the
embedded total functions faithfully model the source loops and no pass can fail. -/
theorem c7_termination :
    (∀ (rs : List (Int × Int)) (d : Int),
      inAnyRange rs (pushPast rs d) = false ∧ d ≤ pushPast rs d ∧
      pushPast rs d ≤ max d (rangeBound rs + 1)) ∧
    (∀ (counts : List (Int × Nat)) (confs : List (Int × Int)) (d : Int),
      lookupCount counts (findSlot counts confs d) < 6 ∧
      inAnyRange confs (findSlot counts confs d) = false ∧
      d ≤ findSlot counts confs d ∧
      findSlot counts confs d ≤ max d (max (keyBound counts) (rangeBound confs) + 1)) ∧
    (∀ (occ : List Int) (confs : List (Int × Int)) (d : Int),
      findFree occ confs d ∉ occ ∧
      inAnyRange confs (findFree occ confs d) = false ∧
      d ≤ findFree occ confs d ∧
      findFree occ confs d ≤ max d (max (occBound occ) (rangeBound confs) + 1)) := by
  refine ⟨fun rs d => ⟨(pushPast_spec rs d).1, (pushPast_spec rs d).2.1, pushPast_le rs d⟩,
    fun counts confs d => ⟨(findSlot_spec counts confs d).1,
      (findSlot_spec counts confs d).2.1, (findSlot_spec counts confs d).2.2.1,
      findSlot_le counts confs d⟩,
    fun occ confs d => ⟨(findFree_spec occ confs d).1, (findFree_spec occ confs d).2.1,
      (findFree_spec occ confs d).2.2, findFree_le occ confs d⟩⟩

/-- C7 witness: the push-past scan at the concrete conference configuration exits
outside every range within its bound. -/
theorem c7_witness :
    inAnyRange cfgC2.confRanges (pushPast cfgC2.confRanges (civil 2025 6 24)) = false ∧
    pushPast cfgC2.confRanges (civil 2025 6 24) ≤
      max (civil 2025 6 24) (rangeBound cfgC2.confRanges + 1) :=
  ⟨(c7_termination.1 cfgC2.confRanges (civil 2025 6 24)).1,
   (c7_termination.1 cfgC2.confRanges (civil 2025 6 24)).2.2⟩

/-- C8: every task's date after the full resolve is greater than or equal to its date
in the melted input — displacement only ever moves dates forward, across all three
passes and repeated moves. -/
theorem c8_dates_monotone :
    ∀ (cfg : Config) (ts : List Task) (i : Nat) (t : Task),
      ts.get? i = some t →
      ∃ t2, (resolve cfg ts).get? i = some t2 ∧ t.date ≤ t2.date := by
  intro cfg ts i t hget
  rcases (resolve_stepLE cfg ts).2 i t hget with ⟨t2, hg2, _, _, hd⟩
  exact ⟨t2, hg2, hd⟩

/-- C8 witness: forward-only displacement on the conference scenario. -/
theorem c8_witness :
    tsC2.get? 0 = some ⟨"Topic A", "Study Date", civil 2025 6 24⟩ ∧
    ∃ t2, (resolve cfgC2 tsC2).get? 0 = some t2 ∧ (civil 2025 6 24 : Int) ≤ t2.date :=
  ⟨by decide,
   c8_dates_monotone cfgC2 tsC2 0 ⟨"Topic A", "Study Date", civil 2025 6 24⟩ (by decide)⟩

/-- C9: the melt of the Master table produces exactly one output row per (Topic,
TaskType) cell whose date cell is non-blank — its length is the total number of
non-blank cells over the eight task-type columns, and a task is in the output exactly
when some row has its type's column non-blank with that date and topic. -/
theorem c9_melt :
    (∀ rows : List MasterRow,
      (melt rows).length =
        ((List.range taskTypeNames.length).map
          (fun j => rows.countP (fun row => (cellAt row j).isSome))).sum) ∧
    (∀ (rows : List MasterRow) (t : Task),
      t ∈ melt rows ↔ ∃ row ∈ rows, ∃ j, taskTypeNames.get? j = some t.ttype ∧
        cellAt row j = some t.date ∧ t.topic = row.topic) := by
  constructor
  · intro rows
    have h := length_meltCols rows taskTypeNames 0
    simpa using h
  · intro rows t
    have h := mem_meltCols rows taskTypeNames 0 t
    simpa using h

/-- C9 witness: the melt characterization on a one-row Master sheet with two
non-blank cells. -/
theorem c9_witness :
    (melt rowsC9).length =
      ((List.range taskTypeNames.length).map
        (fun j => rowsC9.countP (fun row => (cellAt row j).isSome))).sum ∧
    ((⟨"Amino Acids", "Study Date", civil 2025 6 1⟩ : Task) ∈ melt rowsC9 ↔
      ∃ row ∈ rowsC9, ∃ j, taskTypeNames.get? j = some "Study Date" ∧
        cellAt row j = some (civil 2025 6 1) ∧ "Amino Acids" = row.topic) :=
  ⟨c9_melt.1 rowsC9, c9_melt.2 rowsC9 ⟨"Amino Acids", "Study Date", civil 2025 6 1⟩⟩

/-- C10: the resolver only mutates dates — the list of (Topic, Task Type) pairs of the
output equals, position by position, that of the melted input, so no row is created,
deleted, reordered or retyped. -/
theorem c10_frame :
    ∀ (cfg : Config) (ts : List Task),
      (resolve cfg ts).map (fun t => (t.topic, t.ttype)) =
        ts.map (fun t => (t.topic, t.ttype)) := by
  intro cfg ts
  have hs := resolve_stepLE cfg ts
  apply List.ext_get?
  intro n
  rw [List.get?_map, List.get?_map]
  rcases hg : ts.get? n with _ | t
  · have hn : (resolve cfg ts).get? n = none :=
      List.get?_eq_none.mpr (by rw [hs.1]; exact List.get?_eq_none.mp hg)
    rw [hn]
  · rcases hs.2 n t hg with ⟨t2, hg2, h1, h2, _⟩
    rw [hg2]
    simp only [Option.map_some']
    rw [h1, h2]

/-- C10 witness: the frame property on the colliding two-task table. -/
theorem c10_witness :
    (resolve cfgC1 tsC1).map (fun t => (t.topic, t.ttype)) =
      tsC1.map (fun t => (t.topic, t.ttype)) :=
  c10_frame cfgC1 tsC1

end App
